import Mathlib

/-!
Verification of the mini-lsm-starter storage engine.

This file gives a shallow embedding, in Lean 4, of the parts of the
mini-lsm-starter Rust sources that the specification claims talk about:
the block binary codec (src/block.rs), the block builder
(src/block/builder.rs), the block iterator (src/block/iterator.rs), the
sorted-run table and its iterator (src/table.rs, src/table/iterator.rs),
the memtable (src/mem_table.rs), the n-way merge iterator
(src/iterators/merge_iterator.rs), the two-way merge iterator
(src/iterators/two_merge_iterator.rs), the LSM surface iterator
(src/lsm_iterator.rs) and the sorted-run file naming of
src/lsm_storage.rs.

Modelling conventions:
* Byte strings (Rust byte slices and Bytes) are lists of naturals; the
  u8/u16/u32 casts of the source are modelled with explicit `% 2 ^ w`
  arithmetic where the source truncates.
* Rust iterators that are consumed only through the StorageIterator
  interface (is_valid / key / value / next) are modelled by the stream of
  (key, value) pairs they would yield; next is taking the tail.  In this
  pure model an inner next never fails, which is faithful to the
  memtable- and list-backed iterators the engine composes.
* Fallible Rust functions returning anyhow::Result are modelled with
  Except; functions that mutate self and return Result<()> are modelled
  as functions from the state to (state, error option) or to Except of
  the new state.
* Rust slice indexing that would panic out of bounds is modelled with
  truncating take/drop/getD; all theorems stay on inputs where the
  source does not panic.
-/

/-- Byte strings: a Rust byte slice / Bytes value as a list of naturals. -/
abbrev Bytes := List Nat

/-- Lexicographic comparison of byte strings, the Ord instance of Rust
slices used by KeySlice::cmp: compare elementwise, a strict prefix is
Less. -/
def byteCmp : Bytes → Bytes → Ordering
  | [], [] => .eq
  | [], _ :: _ => .lt
  | _ :: _, [] => .gt
  | a :: as, b :: bs =>
    match compare a b with
    | .eq => byteCmp as bs
    | .lt => .lt
    | .gt => .gt

/-- Strict byte-string order (byteCmp yields Less). -/
abbrev bLt (a b : Bytes) : Prop := byteCmp a b = .lt

/-- Reflexive byte-string order (byteCmp does not yield Greater). -/
abbrev bLe (a b : Bytes) : Prop := byteCmp a b ≠ .gt

theorem byteCmp_self (a : Bytes) : byteCmp a a = .eq := by
  induction a with
  | nil => rfl
  | cons x xs ih =>
    show (match compare x x with
      | Ordering.eq => byteCmp xs xs
      | Ordering.lt => Ordering.lt
      | Ordering.gt => Ordering.gt) = Ordering.eq
    rw [(Nat.compare_eq_eq).2 rfl]
    exact ih

theorem byteCmp_eq_iff (a b : Bytes) : byteCmp a b = .eq ↔ a = b := by
  constructor
  · intro h
    induction a generalizing b with
    | nil => cases b with
      | nil => rfl
      | cons y ys => simp [byteCmp] at h
    | cons x xs ih =>
      cases b with
      | nil => simp [byteCmp] at h
      | cons y ys =>
        simp only [byteCmp] at h
        rcases hc : compare x y with _ | _ | _ <;> rw [hc] at h
        · simp at h
        · rw [Nat.compare_eq_eq] at hc
          rw [hc, ih _ h]
        · simp at h
  · intro h; subst h; exact byteCmp_self a

theorem byteCmp_swap (a b : Bytes) : byteCmp b a = (byteCmp a b).swap := by
  induction a generalizing b with
  | nil => cases b <;> rfl
  | cons x xs ih =>
    cases b with
    | nil => rfl
    | cons y ys =>
      simp only [byteCmp]
      rcases Nat.lt_trichotomy x y with h | h | h
      · rw [(Nat.compare_eq_lt).2 h, (Nat.compare_eq_gt).2 h]; rfl
      · subst h
        rw [(Nat.compare_eq_eq).2 rfl]
        exact ih ys
      · rw [(Nat.compare_eq_gt).2 h, (Nat.compare_eq_lt).2 h]; rfl

theorem byteCmp_lt_trans {a b c : Bytes} (hab : byteCmp a b = .lt)
    (hbc : byteCmp b c = .lt) : byteCmp a c = .lt := by
  induction a generalizing b c with
  | nil =>
    cases c with
    | nil =>
      cases b with
      | nil => exact hab
      | cons y ys => simp [byteCmp] at hbc
    | cons z zs => rfl
  | cons x xs ih =>
    cases b with
    | nil => simp [byteCmp] at hab
    | cons y ys =>
      cases c with
      | nil => simp [byteCmp] at hbc
      | cons z zs =>
        simp only [byteCmp] at hab hbc ⊢
        rcases hxy : compare x y with _ | _ | _ <;> rw [hxy] at hab
        · rcases hyz : compare y z with _ | _ | _ <;> rw [hyz] at hbc
          · rw [(Nat.compare_eq_lt).2
              (Nat.lt_of_lt_of_le (Nat.compare_eq_lt.1 hxy)
                (Nat.le_of_lt (Nat.compare_eq_lt.1 hyz)))]
          · rw [← Nat.compare_eq_eq.1 hyz, hxy]
          · simp at hbc
        · rcases hyz : compare y z with _ | _ | _ <;> rw [hyz] at hbc
          · rw [Nat.compare_eq_eq.1 hxy, hyz]
          · rw [Nat.compare_eq_eq.1 hxy, hyz]
            exact ih hab hbc
          · simp at hbc
        · simp at hab

theorem bLt_irrefl (a : Bytes) : ¬ bLt a a := by
  intro h
  have h2 := byteCmp_self a
  rw [h] at h2
  exact Ordering.noConfusion h2

theorem byteCmp_trichotomy (a b : Bytes) :
    byteCmp a b = .lt ∨ byteCmp a b = .eq ∨ byteCmp a b = .gt := by
  rcases h : byteCmp a b with _ | _ | _ <;> simp

theorem bLe_iff (a b : Bytes) : bLe a b ↔ bLt a b ∨ a = b := by
  constructor
  · intro h
    rcases byteCmp_trichotomy a b with h1 | h1 | h1
    · exact Or.inl h1
    · exact Or.inr ((byteCmp_eq_iff a b).1 h1)
    · exact absurd h1 h
  · rintro (h | h)
    · intro hg; rw [h] at hg; exact Ordering.noConfusion hg
    · subst h; intro hg; rw [byteCmp_self] at hg; exact Ordering.noConfusion hg

theorem bLt_of_not_bLe {a b : Bytes} (h : ¬ bLe a b) : bLt b a := by
  rcases byteCmp_trichotomy a b with h1 | h1 | h1
  · exact absurd (fun hg => by rw [h1] at hg; exact Ordering.noConfusion hg) h
  · exact absurd (fun hg => by rw [h1] at hg; exact Ordering.noConfusion hg) h
  · have := byteCmp_swap a b
    rw [h1] at this
    exact this

theorem bLe_of_bLt {a b : Bytes} (h : bLt a b) : bLe a b := by
  intro hg; rw [h] at hg; exact Ordering.noConfusion hg

theorem bLt_asymm {a b : Bytes} (h : bLt a b) : ¬ bLt b a := by
  intro h2
  exact bLt_irrefl a (byteCmp_lt_trans h h2)

theorem bLt_of_bLe_of_bLt {a b c : Bytes} (h1 : bLe a b) (h2 : bLt b c) :
    bLt a c := by
  rcases (bLe_iff a b).1 h1 with h | h
  · exact byteCmp_lt_trans h h2
  · subst h; exact h2

theorem bLt_of_bLt_of_bLe {a b c : Bytes} (h1 : bLt a b) (h2 : bLe b c) :
    bLt a c := by
  rcases (bLe_iff b c).1 h2 with h | h
  · exact byteCmp_lt_trans h1 h
  · subst h; exact h1

theorem byteCmp_gt_iff (a b : Bytes) : byteCmp a b = .gt ↔ bLt b a := by
  constructor
  · intro h
    have hs := byteCmp_swap a b
    rw [h] at hs
    exact hs
  · intro h
    have hs := byteCmp_swap a b
    rw [h] at hs
    rcases hab : byteCmp a b with _ | _ | _
    · rw [hab] at hs; exact absurd hs (by decide)
    · rw [hab] at hs; exact absurd hs (by decide)
    · rfl

/-! ### Block codec (src/block.rs)

A block stores `data` (the concatenated entries) and `offsets` (one u16
byte offset per entry).  Encoding appends the big-endian offsets and a
trailing big-endian u16 entry count; decoding reads them back. -/

/-- Big-endian byte pair of a u16 value (u16::to_be_bytes composed with
the truncating cast the source performs on usize lengths). -/
def u16Be (n : Nat) : Bytes := [n / 256 % 256, n % 256]

/-- Reassemble a u16 from its two big-endian bytes (u16::from_be_bytes). -/
def u16FromBe (b0 b1 : Nat) : Nat := b0 * 256 + b1

/-- Decode consecutive big-endian byte pairs into u16 values; this is the
zip/skip/step_by pipeline of Block::decode. -/
def u16sOfBytes : Bytes → List Nat
  | b0 :: b1 :: rest => u16FromBe b0 b1 :: u16sOfBytes rest
  | _ => []

/-- A block: raw entry data plus per-entry offsets (struct Block). -/
structure Block where
  data : Bytes
  offsets : List Nat
deriving DecidableEq, Repr

/-- Block::encode: data bytes, then each offset as big-endian u16, then
the entry count as a trailing big-endian u16. -/
def Block.encode (b : Block) : Bytes :=
  b.data ++ b.offsets.flatMap u16Be ++ u16Be (b.offsets.length % 65536)

/-- Block::decode: read the entry count from the trailing two bytes, then
the offset array, then the data region. -/
def Block.decode (bytes : Bytes) : Block :=
  let n := bytes.length
  let offsetLen := u16FromBe (bytes.getD (n - 2) 0) (bytes.getD (n - 1) 0)
  let dataBytes := bytes.take (n - 2 - offsetLen * 2)
  let offBytes := (bytes.take (n - 2)).drop (n - 2 - offsetLen * 2)
  { data := dataBytes, offsets := u16sOfBytes offBytes }

theorem length_flatMap_u16Be (l : List Nat) :
    (l.flatMap u16Be).length = 2 * l.length := by
  induction l with
  | nil => rfl
  | cons x xs ih => simp [List.flatMap_cons, u16Be, ih]; omega

theorem u16sOfBytes_flatMap (l : List Nat) (h : ∀ o ∈ l, o < 65536) :
    u16sOfBytes (l.flatMap u16Be) = l := by
  induction l with
  | nil => rfl
  | cons x xs ih =>
    have hx : x < 65536 := h x (List.mem_cons_self x xs)
    have hxs : ∀ o ∈ xs, o < 65536 := fun o ho => h o (List.mem_cons_of_mem x ho)
    rw [List.flatMap_cons]
    show u16FromBe (x / 256 % 256) (x % 256) :: u16sOfBytes (xs.flatMap u16Be) =
      x :: xs
    rw [ih hxs]
    congr 1
    have h1 : x / 256 < 256 := by omega
    have h2 : x / 256 % 256 = x / 256 := Nat.mod_eq_of_lt h1
    rw [u16FromBe, h2]
    omega

theorem getD_append_right_at (P T : Bytes) (i : Nat) :
    (P ++ T).getD (P.length + i) 0 = T.getD i 0 := by
  rw [List.getD_eq_getElem?_getD, List.getD_eq_getElem?_getD,
    List.getElem?_append_right (Nat.le_add_right _ _)]
  congr 2
  omega

/-- C5: Block::decode is a left inverse of Block::encode whenever the
entry count and every data offset fit in 16 bits. -/
theorem block_decode_encode (b : Block)
    (hoff : ∀ o ∈ b.offsets, o < 65536)
    (hlen : b.offsets.length < 65536) :
    Block.decode (Block.encode b) = b := by
  have hmod : b.offsets.length % 65536 = b.offsets.length :=
    Nat.mod_eq_of_lt hlen
  have hF : (b.offsets.flatMap u16Be).length = 2 * b.offsets.length :=
    length_flatMap_u16Be b.offsets
  have hE : Block.encode b =
      (b.data ++ b.offsets.flatMap u16Be) ++
        [b.offsets.length / 256 % 256, b.offsets.length % 256] := by
    rw [Block.encode, hmod]
    rfl
  have hPlen : (b.data ++ b.offsets.flatMap u16Be).length =
      b.data.length + 2 * b.offsets.length := by
    rw [List.length_append, hF]
  have hElen : (Block.encode b).length =
      b.data.length + 2 * b.offsets.length + 2 := by
    rw [hE, List.length_append, hPlen]
    rfl
  have hget1 : (Block.encode b).getD ((Block.encode b).length - 2) 0 =
      b.offsets.length / 256 % 256 := by
    rw [hElen, hE,
      show b.data.length + 2 * b.offsets.length + 2 - 2 =
        (b.data ++ b.offsets.flatMap u16Be).length + 0 from by rw [hPlen]; omega,
      getD_append_right_at]
    rfl
  have hget2 : (Block.encode b).getD ((Block.encode b).length - 1) 0 =
      b.offsets.length % 256 := by
    rw [hElen, hE,
      show b.data.length + 2 * b.offsets.length + 2 - 1 =
        (b.data ++ b.offsets.flatMap u16Be).length + 1 from by rw [hPlen]; omega,
      getD_append_right_at]
    rfl
  have hcount : u16FromBe ((Block.encode b).getD ((Block.encode b).length - 2) 0)
      ((Block.encode b).getD ((Block.encode b).length - 1) 0) = b.offsets.length := by
    rw [hget1, hget2, u16FromBe]
    have h1 : b.offsets.length / 256 < 256 := by omega
    rw [Nat.mod_eq_of_lt h1]
    omega
  rw [Block.decode]
  rw [hcount, hElen]
  rw [show b.data.length + 2 * b.offsets.length + 2 - 2 - b.offsets.length * 2 =
      b.data.length from by omega,
    show b.data.length + 2 * b.offsets.length + 2 - 2 =
      (b.data ++ b.offsets.flatMap u16Be).length from by rw [hPlen]; omega,
    hE, List.take_left' rfl]
  rw [show ((b.data ++ b.offsets.flatMap u16Be) ++
      [b.offsets.length / 256 % 256, b.offsets.length % 256]).take b.data.length =
      b.data from by rw [List.append_assoc]; exact List.take_left b.data _]
  rw [List.drop_left, u16sOfBytes_flatMap b.offsets hoff]

/-! ### BlockBuilder (src/block/builder.rs)

The builder accumulates entry bytes and offsets until the projected
encoded size would exceed the block size budget. -/

/-- Builder state for a block (struct BlockBuilder). -/
structure BlockBuilder where
  offsets : List Nat
  data : Bytes
  block_size : Nat
  first_key : Bytes
deriving DecidableEq, Repr

/-- BlockBuilder::new. -/
def BlockBuilder.new (block_size : Nat) : BlockBuilder :=
  { offsets := [], data := [], block_size := block_size, first_key := [] }

/-- BlockBuilder::is_empty: no entry accepted yet (the data buffer is
empty). -/
def BlockBuilder.is_empty (b : BlockBuilder) : Bool := b.data.isEmpty

/-- BlockBuilder::rate_current_size: SIZEOF_U16 + offsets.len() *
SIZEOF_U16 + data.len(). -/
def BlockBuilder.rate_current_size (b : BlockBuilder) : Nat :=
  2 + b.offsets.length * 2 + b.data.length

/-- BlockBuilder::add.  Rust mutates in place and returns a Bool; the
model returns the acceptance flag together with the updated builder. -/
def BlockBuilder.add (b : BlockBuilder) (key value : Bytes) : Bool × BlockBuilder :=
  if b.block_size < b.rate_current_size + key.length + value.length + 2 * 3 ∧
      b.is_empty = false then
    (false, b)
  else
    (true,
      { offsets := b.offsets ++ [b.data.length % 65536],
        data := b.data ++ u16Be key.length ++ key ++ u16Be value.length ++ value,
        block_size := b.block_size,
        first_key := if b.is_empty then key else b.first_key })

/-- BlockBuilder::build. -/
def BlockBuilder.build (b : BlockBuilder) : Block :=
  { data := b.data, offsets := b.offsets }

/-- C6: add(key, value) returns false exactly when the builder is
non-empty and the projected size data_len + key_len + value_len + 2 + 2 +
offsets_count * 2 + 2 + 2 exceeds block_size; in particular an empty
builder accepts any entry. -/
theorem blockBuilder_add_rejects_iff (b : BlockBuilder) (key value : Bytes) :
    (b.add key value).fst = false ↔
      b.is_empty = false ∧
        b.block_size <
          b.data.length + key.length + value.length + 2 + 2 +
            b.offsets.length * 2 + 2 + 2 := by
  unfold BlockBuilder.add BlockBuilder.rate_current_size
  split
  · rename_i h
    simp only [true_iff]
    exact ⟨h.2, by omega⟩
  · rename_i h
    simp only [Bool.true_eq_false, false_iff]
    intro hc
    exact h ⟨by omega, hc.1⟩

/-! ### BlockIterator (src/block/iterator.rs)

Iteration over one block.  Entries are located through the offset array;
the iterator caches the current key. -/

/-- Iterator state over one block (struct BlockIterator). -/
structure BlockIterator where
  block : Block
  key : Bytes
  value_range : Nat × Nat
  idx : Nat
  first_key : Bytes
deriving DecidableEq, Repr

/-- The entry byte slice at an index, as computed identically inside both
BlockIterator::decode_key_base_idx and BlockIterator::value: from
offsets[idx] to offsets[idx + 1] (or to the end for the last entry). -/
def entrySliceAt (block : Block) (idx : Nat) : Bytes :=
  let beginOffset := block.offsets.getD idx 0
  if idx + 1 ≥ block.offsets.length then block.data.drop beginOffset
  else (block.data.take (block.offsets.getD (idx + 1) 0)).drop beginOffset

/-- BlockIterator::decode_key_base_idx: read the 2-byte key length of the
entry at idx and return the key bytes. -/
def decode_key_base_idx (block : Block) (idx : Nat) : Bytes :=
  let entry := entrySliceAt block idx
  let keyLen := u16FromBe (entry.getD 0 0) (entry.getD 1 0)
  (entry.drop 2).take keyLen

/-- The while loop of BlockIterator::binary_search_seek_key, on i32
arithmetic as in the source. -/
def binary_search_seek_key_go (block : Block) (key : Bytes) (left right : Int) : Int :=
  if left ≤ right then
    let mid := (left + right) / 2
    if byteCmp (decode_key_base_idx block mid.toNat) key = .lt then
      binary_search_seek_key_go block key (mid + 1) right
    else
      binary_search_seek_key_go block key left (mid - 1)
  else left
termination_by (right + 1 - left).toNat
decreasing_by
  all_goals omega

/-- BlockIterator::binary_search_seek_key: lower-bound search over the
offsets (the source computes right as offsets.len() - 1 in usize, which
requires a non-empty block to avoid a panic). -/
def binary_search_seek_key (block : Block) (key : Bytes) : Int :=
  binary_search_seek_key_go block key 0 ((block.offsets.length - 1 : Nat) : Int)

/-- BlockIterator::invalid_iterator. -/
def BlockIterator.invalid_iterator (block : Block) : BlockIterator :=
  { block := block, key := [], value_range := (0, 0), idx := 0, first_key := [] }

/-- BlockIterator::create_and_seek_to_key.  Note that the source stores
idx := 0 in the valid branch, not the index found by the search. -/
def BlockIterator.create_and_seek_to_key (block : Block) (key : Bytes) : BlockIterator :=
  let targetIdx := (binary_search_seek_key block key).toNat
  if block.offsets.length ≤ targetIdx then BlockIterator.invalid_iterator block
  else
    { block := block, key := decode_key_base_idx block targetIdx,
      value_range := (0, block.offsets.length), idx := 0, first_key := [] }

/-- BlockIterator::is_valid: idx < value_range.1 in Rust field order,
i.e. the second component here. -/
def BlockIterator.is_valid (it : BlockIterator) : Bool :=
  it.idx < it.value_range.2

/-- BlockIterator::value: locate the entry at the CURRENT idx, skip the
key, and return the value slice. -/
def BlockIterator.value (it : BlockIterator) : Bytes :=
  let entry := entrySliceAt it.block it.idx
  let keyLen := u16FromBe (entry.getD 0 0) (entry.getD 1 0)
  let valueLen := u16FromBe (entry.getD (2 + keyLen) 0) (entry.getD (1 + 2 + keyLen) 0)
  (entry.drop (2 * 2 + keyLen)).take valueLen

/-- BlockIterator::seek_to_key (the in-place method): unlike
create_and_seek_to_key it does store the found index. -/
def BlockIterator.seek_to_key (it : BlockIterator) (key : Bytes) : BlockIterator :=
  let targetIdx := (binary_search_seek_key it.block key).toNat
  let it2 := { it with idx := targetIdx }
  if it2.is_valid = false then it2
  else { it2 with key := decode_key_base_idx it2.block targetIdx }

/-- The two-entry block ("a" -> "1", "b" -> "2") witnessing the
create_and_seek_to_key index bug. -/
def c2Block : Block :=
  { data := [0, 1, 97, 0, 1, 49, 0, 1, 98, 0, 1, 50], offsets := [0, 6] }

/-- C2 (failing input): seeking key "b" in a block holding "a" -> "1" and
"b" -> "2" caches key "b" (index 1) but leaves idx = 0, so value()
returns "1" (the value of entry 0) instead of "2"; the sibling
seek_to_key method lands on idx 1 and reads "2". -/
theorem blockIterator_create_seek_value_bug :
    (BlockIterator.create_and_seek_to_key c2Block [98]).key = [98] ∧
    (BlockIterator.create_and_seek_to_key c2Block [98]).idx = 0 ∧
    (BlockIterator.create_and_seek_to_key c2Block [98]).value = [49] ∧
    (BlockIterator.create_and_seek_to_key c2Block [98]).value ≠ [50] ∧
    ((BlockIterator.create_and_seek_to_key c2Block [97]).seek_to_key [98]).value
      = [50] := by
  have hsearch : binary_search_seek_key c2Block [98] = 1 := by
    simp [binary_search_seek_key, binary_search_seek_key_go, c2Block,
      decode_key_base_idx, entrySliceAt, byteCmp, u16FromBe]
    decide
  have hsearch2 : binary_search_seek_key c2Block [97] = 0 := by
    simp [binary_search_seek_key, binary_search_seek_key_go, c2Block,
      decode_key_base_idx, entrySliceAt, byteCmp, u16FromBe]
    decide
  have hit98 : BlockIterator.create_and_seek_to_key c2Block [98] =
      BlockIterator.mk c2Block [98] (0, 2) 0 [] := by
    simp only [BlockIterator.create_and_seek_to_key]
    rw [hsearch]
    decide
  have hit97 : BlockIterator.create_and_seek_to_key c2Block [97] =
      BlockIterator.mk c2Block [97] (0, 2) 0 [] := by
    simp only [BlockIterator.create_and_seek_to_key]
    rw [hsearch2]
    decide
  have hseek : (BlockIterator.mk c2Block [97] (0, 2) 0 []).seek_to_key [98] =
      BlockIterator.mk c2Block [98] (0, 2) 1 [] := by
    simp only [BlockIterator.seek_to_key]
    rw [hsearch]
    decide
  rw [hit98, hit97, hseek]
  refine ⟨rfl, rfl, by decide, by decide, by decide⟩

/-! ### Sorted-run tables (src/table.rs)

BlockMeta records the file offset and key range of each block; an
SsTable keeps the raw file bytes, the decoded meta directory and the
meta-region offset. -/

/-- Per-block directory record (struct BlockMeta). -/
structure BlockMeta where
  offset : Nat
  first_key : Bytes
  last_key : Bytes
deriving DecidableEq, Repr

/-- Reassemble a u32 from four big-endian bytes (Buf::get_u32). -/
def u32FromBe (bs : Bytes) : Nat :=
  bs.getD 0 0 * 16777216 + bs.getD 1 0 * 65536 + bs.getD 2 0 * 256 + bs.getD 3 0

/-- The per-record loop of BlockMeta::decode_block_meta: u32 offset, u32
first-key length, first key, u32 last-key length, last key. -/
def decode_block_meta_go : Nat → Bytes → List BlockMeta
  | 0, _ => []
  | n + 1, buf =>
    let offset := u32FromBe (buf.take 4)
    let buf1 := buf.drop 4
    let fkLen := u32FromBe (buf1.take 4)
    let buf2 := buf1.drop 4
    let fk := buf2.take fkLen
    let buf3 := buf2.drop fkLen
    let lkLen := u32FromBe (buf3.take 4)
    let buf4 := buf3.drop 4
    let lk := buf4.take lkLen
    let buf5 := buf4.drop lkLen
    BlockMeta.mk offset fk lk :: decode_block_meta_go n buf5

/-- BlockMeta::decode_block_meta: u16 record count, then the records. -/
def decode_block_meta (buf : Bytes) : List BlockMeta :=
  decode_block_meta_go (u16FromBe (buf.getD 0 0) (buf.getD 1 0)) (buf.drop 2)

/-- FileObject::read: pread len bytes at offset (read_exact_at fails past
the end of the file; the model truncates there, which no theorem
exercises). -/
def FileObject.read (file : Bytes) (offset len : Nat) : Bytes :=
  (file.drop offset).take len

/-- An open sorted run (struct SsTable): raw file bytes, decoded block
directory, meta-region offset, id, whether a block cache is attached,
and the cached key range. -/
structure SsTable where
  file : Bytes
  block_meta : List BlockMeta
  block_meta_offset : Nat
  id : Nat
  has_block_cache : Bool
  first_key : Bytes
  last_key : Bytes
deriving DecidableEq, Repr

/-- SsTable::num_of_blocks. -/
def SsTable.num_of_blocks (t : SsTable) : Nat := t.block_meta.length

/-- SsTable::read_block: re-read and re-decode the meta region from the
file, fail when the index is out of range, otherwise decode the block
bytes delimited by the neighbouring offsets. -/
def SsTable.read_block (t : SsTable) (block_idx : Nat) : Except String Block :=
  let meta_len := t.file.length - (t.block_meta_offset + 4)
  let data_blocks := FileObject.read t.file t.block_meta_offset meta_len
  let metas := decode_block_meta data_blocks
  if metas.length ≤ block_idx then
    Except.error "the block_idx out index of meta blocks"
  else if block_idx = metas.length - 1 then
    let blk_offset := (metas.getD block_idx (BlockMeta.mk 0 [] [])).offset
    let blk_len := t.block_meta_offset - blk_offset
    Except.ok (Block.decode (FileObject.read t.file blk_offset blk_len))
  else
    let blk_offset := (metas.getD block_idx (BlockMeta.mk 0 [] [])).offset
    let blk_len := (metas.getD (block_idx + 1) (BlockMeta.mk 0 [] [])).offset - blk_offset
    Except.ok (Block.decode (FileObject.read t.file blk_offset blk_len))

/-- SsTable::read_block_cached: with a cache attached, try_get_with runs
read_block as the loader on a miss; without one it calls read_block
directly.  In this pure single-call model both branches reduce to the
loader result. -/
def SsTable.read_block_cached (t : SsTable) (block_idx : Nat) : Except String Block :=
  t.read_block block_idx

/-- The while loop of SsTable::binary_search_block_idx, on i32 arithmetic
as in the source; the probe moves right when both first_key and last_key
of the probed block are less than the target. -/
def binary_search_block_idx_go (t : SsTable) (key : Bytes) (left right : Int) : Int :=
  if left ≤ right then
    let mid := (left + right) / 2
    let meta := t.block_meta.getD mid.toNat (BlockMeta.mk 0 [] [])
    if byteCmp meta.first_key key = .lt ∧ byteCmp meta.last_key key = .lt then
      binary_search_block_idx_go t key (mid + 1) right
    else
      binary_search_block_idx_go t key left (mid - 1)
  else left
termination_by (right + 1 - left).toNat
decreasing_by
  all_goals omega

/-- SsTable::find_block_idx. -/
def SsTable.find_block_idx (t : SsTable) (key : Bytes) : Nat :=
  (binary_search_block_idx_go t key 0 ((t.block_meta.length - 1 : Nat) : Int)).toNat

/-! ### SsTableIterator (src/table/iterator.rs) -/

/-- Iterator over a sorted run (struct SsTableIterator). -/
structure SsTableIterator where
  table : SsTable
  blk_iter : BlockIterator
  blk_idx : Nat
  blk_num : Nat
deriving DecidableEq, Repr

/-- SsTableIterator::create_and_seek_to_key: find the candidate block,
read it (the question-mark operator propagates a read_block error), then
seek the block iterator. -/
def SsTableIterator.create_and_seek_to_key (table : SsTable) (key : Bytes) :
    Except String SsTableIterator :=
  match table.read_block_cached (table.find_block_idx key) with
  | Except.error e => Except.error e
  | Except.ok block =>
    Except.ok (SsTableIterator.mk table
      (BlockIterator.create_and_seek_to_key block key) (table.find_block_idx key)
      table.num_of_blocks)

/-- SsTableIterator::seek_to_key: the if-let Ok silently discards a
read_block error, leaving blk_idx and blk_iter untouched, and the method
returns Ok either way. -/
def SsTableIterator.seek_to_key (it : SsTableIterator) (key : Bytes) :
    Except String SsTableIterator :=
  match it.table.read_block_cached (it.table.find_block_idx key) with
  | Except.ok block =>
    Except.ok { it with blk_idx := it.table.find_block_idx key,
                        blk_iter := BlockIterator.create_and_seek_to_key block key }
  | Except.error _ => Except.ok it

/-- SsTableIterator::is_valid. -/
def SsTableIterator.is_valid (it : SsTableIterator) : Bool := it.blk_iter.is_valid

/-- C3 (amended): when find_block_idx lands past the last block (the
target exceeds the run's last key), create_and_seek_to_key propagates
the out-of-range read_block error instead of yielding an invalid
iterator, and seek_to_key swallows the error, returning Ok with the
iterator left exactly at its previous position.  The hypothesis ties the
meta directory re-decoded from the file region to the block_meta field,
which holds for any table produced by SsTable::open. -/
theorem sstIterator_seek_past_end (t : SsTable) (key : Bytes)
    (hmeta : (decode_block_meta (FileObject.read t.file t.block_meta_offset
      (t.file.length - (t.block_meta_offset + 4)))).length = t.block_meta.length)
    (hidx : t.num_of_blocks ≤ t.find_block_idx key) :
    SsTableIterator.create_and_seek_to_key t key =
        Except.error "the block_idx out index of meta blocks" ∧
      ∀ it : SsTableIterator, it.table = t →
        it.seek_to_key key = Except.ok it := by
  have hread : t.read_block (t.find_block_idx key) =
      Except.error "the block_idx out index of meta blocks" := by
    unfold SsTable.read_block
    rw [if_pos]
    rw [hmeta]
    exact hidx
  constructor
  · unfold SsTableIterator.create_and_seek_to_key SsTable.read_block_cached
    rw [hread]
  · intro it hit
    unfold SsTableIterator.seek_to_key SsTable.read_block_cached
    rw [hit, hread]


/-- The concrete one-block sorted run ("a" -> "1") used as counterexample
input: 10 bytes of encoded block, a 16-byte meta region, and the meta
offset 10 as a trailing u32. -/
def c3Table : SsTable :=
  SsTable.mk
    ([0, 1, 97, 0, 1, 49, 0, 0, 0, 1] ++
      [0, 1, 0, 0, 0, 0, 0, 0, 0, 1, 97, 0, 0, 0, 1, 97] ++ [0, 0, 0, 10])
    [BlockMeta.mk 0 [97] [97]] 10 0 false [97] [97]

/-- C3 (counterexample): on the one-entry run holding only key "a",
seeking to "b" makes create_and_seek_to_key return an error, refuting
the claim that such a seek succeeds with an invalid iterator. -/
theorem sstIterator_seek_past_end_cex :
    SsTableIterator.create_and_seek_to_key c3Table [98] =
      Except.error "the block_idx out index of meta blocks" := by
  have hfind : c3Table.find_block_idx [98] = 1 := by
    simp [SsTable.find_block_idx, binary_search_block_idx_go, c3Table, byteCmp]
    decide
  unfold SsTableIterator.create_and_seek_to_key SsTable.read_block_cached
  rw [hfind]
  rfl

/-- Closed instantiation of sstIterator_seek_past_end at the concrete
one-block table and target "b". -/
theorem sstIterator_seek_past_end_witness :
    SsTableIterator.create_and_seek_to_key c3Table [98] =
        Except.error "the block_idx out index of meta blocks" ∧
      ∀ it : SsTableIterator, it.table = c3Table →
        it.seek_to_key [98] = Except.ok it := by
  have hfind : c3Table.find_block_idx [98] = 1 := by
    simp [SsTable.find_block_idx, binary_search_block_idx_go, c3Table, byteCmp]
    decide
  exact sstIterator_seek_past_end c3Table [98] (by decide)
    (by rw [hfind]; decide)

/-! ### MemTable (src/mem_table.rs)

The skiplist is modelled as an association list; entry order inside the
map is irrelevant to the size-accounting claim.  approximate_size is the
atomic counter. -/

/-- In-memory table (struct MemTable). -/
structure MemTable where
  map : List (Bytes × Bytes)
  wal : Option Unit
  id : Nat
  approximate_size : Nat
deriving DecidableEq, Repr

/-- MemTable::create: fresh map, no WAL, and the size counter starts at
AtomicUsize::new(1). -/
def MemTable.create (id : Nat) : MemTable := MemTable.mk [] none id 1

/-- MemTable::put: remove an existing entry with the key, insert the new
pair, then fetch_add key.len() + value.len() onto the counter (never
deducting the removed entry). -/
def MemTable.put (m : MemTable) (key value : Bytes) : MemTable :=
  let m1 := if m.map.any (fun e => e.1 == key)
    then { m with map := m.map.filter (fun e => !(e.1 == key)) } else m
  { m1 with map := (key, value) :: m1.map,
            approximate_size := m1.approximate_size + (key.length + value.length) }

/-- MemTable::get. -/
def MemTable.get (m : MemTable) (key : Bytes) : Option Bytes :=
  (m.map.find? (fun e => e.1 == key)).map Prod.snd

theorem memtable_put_size (m : MemTable) (key value : Bytes) :
    (m.put key value).approximate_size =
      m.approximate_size + (key.length + value.length) := by
  unfold MemTable.put
  split <;> rfl

theorem memtable_foldl_put_size (ops : List (Bytes × Bytes)) (m : MemTable) :
    (ops.foldl (fun t kv => t.put kv.1 kv.2) m).approximate_size =
      m.approximate_size + (ops.map (fun kv => kv.1.length + kv.2.length)).sum := by
  induction ops generalizing m with
  | nil => simp
  | cons kv rest ih =>
    rw [List.foldl_cons, ih, memtable_put_size, List.map_cons, List.sum_cons]
    omega

/-- C9: a fresh MemTable reports approximate_size 1, and after any
sequence of puts the size is 1 plus the summed key and value lengths of
every call, overwrites included. -/
theorem memtable_approximate_size_accounting (id : Nat)
    (ops : List (Bytes × Bytes)) :
    (MemTable.create id).approximate_size = 1 ∧
      (ops.foldl (fun t kv => t.put kv.1 kv.2) (MemTable.create id)).approximate_size
        = 1 + (ops.map (fun kv => kv.1.length + kv.2.length)).sum := by
  exact ⟨rfl, memtable_foldl_put_size ops (MemTable.create id)⟩

/-! ### Sorted-run file naming (src/lsm_storage.rs) -/

/-- Decimal digits of an id zero-padded to width five, the {:05} format
specifier used by LsmStorageInner::path_of_sst_static. -/
def natPadded5 (n : Nat) : String :=
  String.mk (List.replicate (5 - (Nat.repr n).length) '0') ++ Nat.repr n

/-- LsmStorageInner::path_of_sst_static: path.join(format {:05}.sst). -/
def path_of_sst_static (path : String) (id : Nat) : String :=
  path ++ "/" ++ natPadded5 id ++ ".sst"

/-- The file path force_flush_next_imm_memtable actually builds:
new_sst_name is format {}.sst without padding, joined onto the engine
path. -/
def force_flush_sst_path (path : String) (id : Nat) : String :=
  path ++ "/" ++ Nat.repr id ++ ".sst"

/-- C8 (failing input): flushing the memtable with id 1 under directory
dir writes dir/1.sst, while the claimed (and path_of_sst_static's)
name is dir/00001.sst. -/
theorem force_flush_sst_name_unpadded :
    force_flush_sst_path "dir" 1 = "dir/1.sst" ∧
      path_of_sst_static "dir" 1 = "dir/00001.sst" ∧
      force_flush_sst_path "dir" 1 ≠ path_of_sst_static "dir" 1 := by
  refine ⟨by decide, by decide, by decide⟩

/-! ### LsmIterator (src/lsm_iterator.rs)

The inner TwoMergeIterator is modelled by the stream of (key, value)
pairs it would yield.  The end_bound check of
move_to_non_delete_non_overbound returns an anyhow error when the
current key passes the bound; the error value is modelled by an
inductive carrying the same data as the formatted message. -/

/-- A std::ops::Bound over byte strings. -/
inductive RustBound where
  | included (k : Bytes)
  | excluded (k : Bytes)
  | unbounded
deriving DecidableEq, Repr

/-- The anyhow errors LsmIterator::move_to_non_delete_non_overbound can
produce, carrying the current key and the bound of the message text. -/
inductive LsmErr where
  | overbound_included (cur bound : Bytes)
  | overbound_excluded (cur bound : Bytes)
deriving DecidableEq, Repr

/-- Surface iterator (struct LsmIterator). -/
structure LsmIterator where
  inner : List (Bytes × Bytes)
  end_bound : RustBound
deriving DecidableEq, Repr

/-- The tombstone-skip loop of move_to_non_delete_non_overbound: advance
while valid and the current value is empty. -/
def skip_deletes : List (Bytes × Bytes) → List (Bytes × Bytes)
  | [] => []
  | (k, v) :: rest => if v = [] then skip_deletes rest else (k, v) :: rest

/-- Key of a stream position (the empty key when exhausted, as the
underlying iterators report). -/
def streamKeyOf (s : List (Bytes × Bytes)) : Bytes := (s.headD ([], [])).1

/-- Value of a stream position. -/
def streamValueOf (s : List (Bytes × Bytes)) : Bytes := (s.headD ([], [])).2

/-- LsmIterator::move_to_non_delete_non_overbound: skip tombstones, then
compare the current key against end_bound; while still valid on a
non-empty value whose key passes the bound (Greater for Included, not
Less for Excluded) the method returns an anyhow error.  Rust mutates
self and returns Result of unit; the model returns the mutated state
with an optional error. -/
def LsmIterator.move_to_non_delete_non_overbound (it : LsmIterator) :
    LsmIterator × Option LsmErr :=
  match it.end_bound with
  | RustBound.included eb =>
    if (skip_deletes it.inner).isEmpty = false ∧
        streamValueOf (skip_deletes it.inner) ≠ [] ∧
        byteCmp (streamKeyOf (skip_deletes it.inner)) eb = .gt then
      (LsmIterator.mk (skip_deletes it.inner) it.end_bound,
        some (LsmErr.overbound_included (streamKeyOf (skip_deletes it.inner)) eb))
    else (LsmIterator.mk (skip_deletes it.inner) it.end_bound, none)
  | RustBound.excluded eb =>
    if (skip_deletes it.inner).isEmpty = false ∧
        streamValueOf (skip_deletes it.inner) ≠ [] ∧
        byteCmp (streamKeyOf (skip_deletes it.inner)) eb ≠ .lt then
      (LsmIterator.mk (skip_deletes it.inner) it.end_bound,
        some (LsmErr.overbound_excluded (streamKeyOf (skip_deletes it.inner)) eb))
    else (LsmIterator.mk (skip_deletes it.inner) it.end_bound, none)
  | RustBound.unbounded =>
    (LsmIterator.mk (skip_deletes it.inner) it.end_bound, none)

/-- LsmIterator::new: run the skip-and-check pass; its error aborts
construction through the question-mark operator. -/
def LsmIterator.new (inner : List (Bytes × Bytes)) (end_bound : RustBound) :
    Except LsmErr LsmIterator :=
  match (LsmIterator.mk inner end_bound).move_to_non_delete_non_overbound with
  | (_, some e) => Except.error e
  | (it2, none) => Except.ok it2

/-- StorageIterator::next for LsmIterator: advance the inner iterator,
then re-run the skip-and-check pass. -/
def LsmIterator.next (it : LsmIterator) : LsmIterator × Option LsmErr :=
  LsmIterator.move_to_non_delete_non_overbound
    (LsmIterator.mk it.inner.tail it.end_bound)

/-- LsmIterator::is_valid: validity of the inner iterator. -/
def LsmIterator.is_valid (it : LsmIterator) : Bool := !it.inner.isEmpty

/-- A key strictly past an upper bound: Greater than an Included bound,
not Less than an Excluded bound; no key is past Unbounded. -/
def pastBound (key : Bytes) (b : RustBound) : Prop :=
  match b with
  | RustBound.included k => byteCmp key k = .gt
  | RustBound.excluded k => byteCmp key k ≠ .lt
  | RustBound.unbounded => False

/-- The error move_to_non_delete_non_overbound raises for a key past the
given bound. -/
def overboundErr (key : Bytes) (b : RustBound) : LsmErr :=
  match b with
  | RustBound.included k => LsmErr.overbound_included key k
  | RustBound.excluded k => LsmErr.overbound_excluded key k
  | RustBound.unbounded => LsmErr.overbound_included key key

/-- C1 (counterexample): an inner iterator positioned on key "b" with a
non-empty value and end bound Included "a" makes LsmIterator::new return
an error, refuting the claim that construction succeeds and merely
reports invalid. -/
theorem lsmIterator_overbound_error_cex :
    LsmIterator.new [([98], [118])] (RustBound.included [97]) =
      Except.error (LsmErr.overbound_included [98] [97]) := rfl

/-- C1 (amended): whenever the inner iterator, after tombstone skipping,
is valid and positioned on a non-tombstone key past end_bound,
construction returns Err, and next() returns Err while the resulting
iterator still reports is_valid true on the overrun key. -/
theorem lsmIterator_overbound_error (k v : Bytes) (rest : List (Bytes × Bytes))
    (eb : RustBound) (hv : v ≠ []) (hb : pastBound k eb) :
    LsmIterator.new ((k, v) :: rest) eb = Except.error (overboundErr k eb) ∧
      ∀ it : LsmIterator, it.end_bound = eb → it.inner.tail = (k, v) :: rest →
        (it.next).snd = some (overboundErr k eb) ∧
        (it.next).fst.is_valid = true := by
  have hskip : skip_deletes ((k, v) :: rest) = (k, v) :: rest := by
    unfold skip_deletes
    rw [if_neg hv]
  have hmove : ∀ it : LsmIterator, it.end_bound = eb →
      it.inner = (k, v) :: rest →
      it.move_to_non_delete_non_overbound =
        (LsmIterator.mk ((k, v) :: rest) eb, some (overboundErr k eb)) := by
    intro it hitb hiti
    cases eb with
    | included b =>
      simp only [LsmIterator.move_to_non_delete_non_overbound, hiti, hitb, hskip]
      rw [if_pos ⟨rfl, hv, hb⟩]
      rfl
    | excluded b =>
      simp only [LsmIterator.move_to_non_delete_non_overbound, hiti, hitb, hskip]
      rw [if_pos ⟨rfl, hv, hb⟩]
      rfl
    | unbounded => exact hb.elim
  constructor
  · unfold LsmIterator.new
    rw [hmove (LsmIterator.mk ((k, v) :: rest) eb) rfl rfl]
  · intro it hitb hiti
    unfold LsmIterator.next
    rw [hmove (LsmIterator.mk it.inner.tail it.end_bound) hitb hiti]
    exact ⟨rfl, rfl⟩

/-- Closed instantiation of lsmIterator_overbound_error: inner stream
"a" then "b", end bound Excluded "b", with next() hitting the overrun. -/
theorem lsmIterator_overbound_error_witness :
    LsmIterator.new [([98], [118])] (RustBound.excluded [98]) =
        Except.error (LsmErr.overbound_excluded [98] [98]) ∧
      ((LsmIterator.mk [([97], [1]), ([98], [118])]
          (RustBound.excluded [98])).next).snd =
        some (LsmErr.overbound_excluded [98] [98]) ∧
      ((LsmIterator.mk [([97], [1]), ([98], [118])]
          (RustBound.excluded [98])).next).fst.is_valid = true := by
  have h := lsmIterator_overbound_error [98] [118] [] (RustBound.excluded [98])
    (by decide) (show byteCmp [98] [98] ≠ Ordering.lt by decide)
  have h2 := h.2 (LsmIterator.mk [([97], [1]), ([98], [118])]
    (RustBound.excluded [98])) rfl rfl
  exact ⟨h.1, h2.1, h2.2⟩

/-- Closed instantiation of block_decode_encode at the two-entry block. -/
theorem block_decode_encode_witness :
    Block.decode (Block.encode c2Block) = c2Block :=
  block_decode_encode c2Block (by decide) (by decide)

/-! ### TwoMergeIterator (src/iterators/two_merge_iterator.rs)

The two heterogeneous inner iterators are modelled by their streams; the
selector field is the i32 current of the source (0 = A, 1 = B). -/

/-- Two-way merging iterator (struct TwoMergeIterator). -/
structure TwoMergeIterator where
  a : List (Bytes × Bytes)
  b : List (Bytes × Bytes)
  current : Int
deriving DecidableEq, Repr

/-- The selector computation that create and the recompute block at the
end of next both perform: B when both sides are valid and A's key is
Greater, otherwise the valid side (B when neither side is valid). -/
def twoMergeSelector (a b : List (Bytes × Bytes)) : Int :=
  if a.isEmpty = false ∧ b.isEmpty = false then
    (if byteCmp (streamKeyOf a) (streamKeyOf b) = .gt then 1 else 0)
  else if a.isEmpty = false then 0
  else 1

/-- TwoMergeIterator::create (the Rust Result is always Ok). -/
def TwoMergeIterator.create (a b : List (Bytes × Bytes)) : TwoMergeIterator :=
  TwoMergeIterator.mk a b (twoMergeSelector a b)

/-- TwoMergeIterator::key. -/
def TwoMergeIterator.key (it : TwoMergeIterator) : Bytes :=
  if it.current = 0 then streamKeyOf it.a else streamKeyOf it.b

/-- TwoMergeIterator::value. -/
def TwoMergeIterator.value (it : TwoMergeIterator) : Bytes :=
  if it.current = 0 then streamValueOf it.a else streamValueOf it.b

/-- TwoMergeIterator::is_valid. -/
def TwoMergeIterator.is_valid (it : TwoMergeIterator) : Bool :=
  if it.current = 0 then !it.a.isEmpty else !it.b.isEmpty

/-- TwoMergeIterator::next: with both sides valid compare keys and
advance the smaller side (both on Equal), then recompute the selector;
with one side valid advance it and point current at it. -/
def TwoMergeIterator.next (it : TwoMergeIterator) : TwoMergeIterator :=
  if it.a.isEmpty = false ∧ it.b.isEmpty = false then
    match byteCmp (streamKeyOf it.a) (streamKeyOf it.b) with
    | Ordering.lt =>
      TwoMergeIterator.mk it.a.tail it.b (twoMergeSelector it.a.tail it.b)
    | Ordering.eq =>
      TwoMergeIterator.mk it.a.tail it.b.tail
        (twoMergeSelector it.a.tail it.b.tail)
    | Ordering.gt =>
      TwoMergeIterator.mk it.a it.b.tail (twoMergeSelector it.a it.b.tail)
  else if it.a.isEmpty = false then TwoMergeIterator.mk it.a.tail it.b 0
  else if it.b.isEmpty = false then TwoMergeIterator.mk it.a it.b.tail 1
  else it

theorem twoMergeNext_size (it : TwoMergeIterator) (h : it.is_valid = true) :
    (it.next).a.length + (it.next).b.length < it.a.length + it.b.length := by
  obtain ⟨a, b, cur⟩ := it
  cases a with
  | nil =>
    cases b with
    | nil =>
      exfalso
      rcases Decidable.em (cur = 0) with hcur | hcur <;>
        simp [TwoMergeIterator.is_valid, hcur] at h
    | cons p bs =>
      simp [TwoMergeIterator.next]
  | cons q as =>
    cases b with
    | nil =>
      simp [TwoMergeIterator.next]
    | cons p bs =>
      rcases hc : byteCmp (streamKeyOf (q :: as)) (streamKeyOf (p :: bs))
          with _ | _ | _ <;>
        simp [TwoMergeIterator.next, hc] <;> omega

/-- The stream of (key, value) pairs a TwoMergeIterator yields when
driven with key/value/next until is_valid turns false. -/
def twoMergeEmit (it : TwoMergeIterator) : List (Bytes × Bytes) :=
  if h : it.is_valid = true then (it.key, it.value) :: twoMergeEmit it.next
  else []
termination_by it.a.length + it.b.length
decreasing_by exact twoMergeNext_size it h

/-- Every key of every pair of a stream is strictly above x. -/
def keysAbove (x : Bytes) (s : List (Bytes × Bytes)) : Prop :=
  ∀ e ∈ s, bLt x e.1

theorem keysAbove_tail {x : Bytes} {s : List (Bytes × Bytes)}
    (h : keysAbove x s) : keysAbove x s.tail := by
  intro e he
  exact h e (List.mem_of_mem_tail he)

theorem twoMergeNext_keysAbove {x : Bytes} {it : TwoMergeIterator}
    (ha : keysAbove x it.a) (hb : keysAbove x it.b) :
    keysAbove x (it.next).a ∧ keysAbove x (it.next).b := by
  unfold TwoMergeIterator.next
  by_cases hab : it.a.isEmpty = false ∧ it.b.isEmpty = false
  · rw [if_pos hab]
    rcases hc : byteCmp (streamKeyOf it.a) (streamKeyOf it.b) with _ | _ | _ <;>
      exact ⟨by first
        | exact keysAbove_tail ha
        | exact ha, by first
        | exact keysAbove_tail hb
        | exact hb⟩
  · rw [if_neg hab]
    by_cases hav : it.a.isEmpty = false
    · rw [if_pos hav]
      exact ⟨keysAbove_tail ha, hb⟩
    · rw [if_neg hav]
      by_cases hbv : it.b.isEmpty = false
      · rw [if_pos hbv]
        exact ⟨ha, keysAbove_tail hb⟩
      · rw [if_neg hbv]
        exact ⟨ha, hb⟩

theorem twoMergeEmit_keysAbove (x : Bytes) (it : TwoMergeIterator)
    (ha : keysAbove x it.a) (hb : keysAbove x it.b) :
    ∀ e ∈ twoMergeEmit it, bLt x e.1 := by
  rw [twoMergeEmit]
  split
  · rename_i hvalid
    intro e he
    rcases List.mem_cons.1 he with he1 | he2
    · subst he1
      show bLt x (it.key)
      unfold TwoMergeIterator.key
      unfold TwoMergeIterator.is_valid at hvalid
      by_cases hcur : it.current = 0
      · rw [if_pos hcur]
        rw [if_pos hcur] at hvalid
        cases hx : it.a with
        | nil => rw [hx] at hvalid; simp at hvalid
        | cons p l =>
          have : p ∈ it.a := by rw [hx]; exact List.mem_cons_self p l
          exact ha p this
      · rw [if_neg hcur]
        rw [if_neg hcur] at hvalid
        cases hx : it.b with
        | nil => rw [hx] at hvalid; simp at hvalid
        | cons p l =>
          have : p ∈ it.b := by rw [hx]; exact List.mem_cons_self p l
          exact hb p this
    · have hrec := twoMergeEmit_keysAbove x it.next
        (twoMergeNext_keysAbove ha hb).1 (twoMergeNext_keysAbove ha hb).2
      exact hrec e he2
  · intro e he
    exact absurd he (List.not_mem_nil e)
termination_by it.a.length + it.b.length
decreasing_by exact twoMergeNext_size it (by assumption)

/-- C7: when A and B sit on the same key k (with the selector as create
and next maintain it), the iterator emits A's pair for k, the following
next() advances both sides past k, and with strictly ascending inputs no
later emission carries k, so B's entry for k is never produced. -/
theorem twoMergeIterator_tie_a_wins (k va vb : Bytes)
    (a2 b2 : List (Bytes × Bytes)) (it : TwoMergeIterator)
    (ha : it.a = (k, va) :: a2) (hb : it.b = (k, vb) :: b2)
    (hsel : it.current = twoMergeSelector it.a it.b)
    (hsa : List.Pairwise (fun x y => bLt x.1 y.1) it.a)
    (hsb : List.Pairwise (fun x y => bLt x.1 y.1) it.b) :
    it.key = k ∧ it.value = va ∧
      it.next = TwoMergeIterator.mk a2 b2 (twoMergeSelector a2 b2) ∧
      ∀ e ∈ twoMergeEmit it.next, e.1 ≠ k := by
  have hcmp : byteCmp (streamKeyOf it.a) (streamKeyOf it.b) = .eq := by
    rw [ha, hb]
    exact byteCmp_self k
  have hcur : it.current = 0 := by
    rw [hsel]
    unfold twoMergeSelector
    rw [if_pos ⟨by rw [ha]; rfl, by rw [hb]; rfl⟩, if_neg]
    rw [hcmp]
    decide
  have hnext : it.next = TwoMergeIterator.mk a2 b2 (twoMergeSelector a2 b2) := by
    unfold TwoMergeIterator.next
    rw [if_pos ⟨by rw [ha]; rfl, by rw [hb]; rfl⟩, hcmp]
    rw [ha, hb]
    rfl
  have hka : keysAbove k a2 := by
    rw [ha] at hsa
    intro e he
    exact (List.pairwise_cons.1 hsa).1 e he
  have hkb : keysAbove k b2 := by
    rw [hb] at hsb
    intro e he
    exact (List.pairwise_cons.1 hsb).1 e he
  refine ⟨?_, ?_, hnext, ?_⟩
  · unfold TwoMergeIterator.key
    rw [if_pos hcur, ha]
    rfl
  · unfold TwoMergeIterator.value
    rw [if_pos hcur, ha]
    rfl
  · intro e he
    have habove : ∀ e2 ∈ twoMergeEmit it.next, bLt k e2.1 := by
      rw [hnext]
      exact twoMergeEmit_keysAbove k (TwoMergeIterator.mk a2 b2
        (twoMergeSelector a2 b2)) hka hkb
    intro hek
    have := habove e he
    rw [hek] at this
    exact bLt_irrefl k this

/-- Closed instantiation of twoMergeIterator_tie_a_wins: A holds "a"->"1"
then "b"->"2", B holds "a"->"3". -/
theorem twoMergeIterator_tie_a_wins_witness :
    (TwoMergeIterator.create [([97], [49]), ([98], [50])] [([97], [51])]).key
        = [97] ∧
      (TwoMergeIterator.create [([97], [49]), ([98], [50])] [([97], [51])]).value
        = [49] ∧
      (TwoMergeIterator.create [([97], [49]), ([98], [50])] [([97], [51])]).next
        = TwoMergeIterator.mk [([98], [50])] []
            (twoMergeSelector [([98], [50])] []) ∧
      ∀ e ∈ twoMergeEmit (TwoMergeIterator.create [([97], [49]), ([98], [50])]
          [([97], [51])]).next, e.1 ≠ [97] :=
  twoMergeIterator_tie_a_wins [97] [49] [51] [([98], [50])] []
    (TwoMergeIterator.create [([97], [49]), ([98], [50])] [([97], [51])])
    rfl rfl rfl (by decide) (by decide)

/-! ### MergeIterator (src/iterators/merge_iterator.rs)

The N-way merge.  A HeapWrapper is (registration index, iterator),
the iterator modelled by its remaining stream.  Rust's BinaryHeap of
HeapWrappers is modelled by the list of entries together with popMin,
which extracts the heap's top: HeapWrapper's Ord reverses the
(current key, index) comparison, so the max-heap's top is the entry
whose (key, index) is smallest.  Registration indices are distinct, so
the top is unique and any heap implementation pops the same entry. -/

/-- A heap entry HeapWrapper(index, iterator stream). -/
abbrev MergeEntry := Nat × List (Bytes × Bytes)

/-- Strict priority of HeapWrapper's Ord: x orders before y when its
(current key, registration index) pair is lexicographically smaller. -/
def entryBefore (x y : MergeEntry) : Bool :=
  match byteCmp (streamKeyOf x.2) (streamKeyOf y.2) with
  | Ordering.lt => true
  | Ordering.gt => false
  | Ordering.eq => decide (x.1 < y.1)

theorem entryBefore_iff (x y : MergeEntry) : entryBefore x y = true ↔
    (bLt (streamKeyOf x.2) (streamKeyOf y.2) ∨
      (streamKeyOf x.2 = streamKeyOf y.2 ∧ x.1 < y.1)) := by
  unfold entryBefore
  rcases h : byteCmp (streamKeyOf x.2) (streamKeyOf y.2) with _ | _ | _
  · simp only [h]
    simp
    exact Or.inl h
  · have hk := (byteCmp_eq_iff _ _).1 h
    simp only [h]
    simp [hk]
    intro hc
    exact absurd hc (bLt_irrefl _)
  · have hk : ¬ streamKeyOf x.2 = streamKeyOf y.2 := by
      intro he
      rw [← byteCmp_eq_iff] at he
      rw [h] at he
      exact Ordering.noConfusion he
    simp only [h]
    simp [hk]
    intro hc
    rw [hc] at h
    exact Ordering.noConfusion h

theorem entryBefore_false_iff (x y : MergeEntry) : entryBefore x y = false ↔
    (bLt (streamKeyOf y.2) (streamKeyOf x.2) ∨
      (streamKeyOf x.2 = streamKeyOf y.2 ∧ y.1 ≤ x.1)) := by
  constructor
  · intro h
    rcases byteCmp_trichotomy (streamKeyOf x.2) (streamKeyOf y.2) with hc | hc | hc
    · exfalso
      have := (entryBefore_iff x y).2 (Or.inl hc)
      rw [h] at this
      exact Bool.noConfusion this
    · have hk := (byteCmp_eq_iff _ _).1 hc
      refine Or.inr ⟨hk, ?_⟩
      by_cases hl : x.1 < y.1
      · exfalso
        have := (entryBefore_iff x y).2 (Or.inr ⟨hk, hl⟩)
        rw [h] at this
        exact Bool.noConfusion this
      · omega
    · exact Or.inl ((byteCmp_gt_iff _ _).1 hc)
  · intro h
    by_cases hc : entryBefore x y = true
    · exfalso
      rcases (entryBefore_iff x y).1 hc with h1 | ⟨h1, h2⟩ <;>
        rcases h with h3 | ⟨h3, h4⟩
      · exact bLt_irrefl _ (byteCmp_lt_trans h1 h3)
      · rw [h3] at h1
        exact bLt_irrefl _ h1
      · rw [h1] at h3
        exact bLt_irrefl _ h3
      · omega
    · exact Bool.eq_false_iff.2 hc

theorem entryBefore_irrefl (x : MergeEntry) : entryBefore x x = false :=
  (entryBefore_false_iff x x).2 (Or.inr ⟨rfl, Nat.le_refl _⟩)

theorem entryBefore_asymm {x y : MergeEntry} (h : entryBefore x y = true) :
    entryBefore y x = false := by
  rcases (entryBefore_iff x y).1 h with h1 | ⟨h1, h2⟩
  · exact (entryBefore_false_iff y x).2 (Or.inl h1)
  · exact (entryBefore_false_iff y x).2 (Or.inr ⟨h1.symm, Nat.le_of_lt h2⟩)

theorem entryBefore_trans {x y z : MergeEntry} (h1 : entryBefore x y = true)
    (h2 : entryBefore y z = true) : entryBefore x z = true := by
  rcases (entryBefore_iff x y).1 h1 with ha | ⟨ha, ha2⟩ <;>
    rcases (entryBefore_iff y z).1 h2 with hb | ⟨hb, hb2⟩
  · exact (entryBefore_iff x z).2 (Or.inl (byteCmp_lt_trans ha hb))
  · exact (entryBefore_iff x z).2 (Or.inl (by rw [← hb]; exact ha))
  · exact (entryBefore_iff x z).2 (Or.inl (by rw [ha]; exact hb))
  · exact (entryBefore_iff x z).2 (Or.inr ⟨by rw [ha]; exact hb, by omega⟩)

theorem entryBefore_negtrans {x y z : MergeEntry}
    (h1 : entryBefore x y = false) (h2 : entryBefore y z = false) :
    entryBefore x z = false := by
  rcases (entryBefore_false_iff x y).1 h1 with ha | ⟨ha, ha2⟩ <;>
    rcases (entryBefore_false_iff y z).1 h2 with hb | ⟨hb, hb2⟩
  · exact (entryBefore_false_iff x z).2 (Or.inl (byteCmp_lt_trans hb ha))
  · exact (entryBefore_false_iff x z).2 (Or.inl (by rw [← hb]; exact ha))
  · exact (entryBefore_false_iff x z).2 (Or.inl (by rw [ha]; exact hb))
  · exact (entryBefore_false_iff x z).2 (Or.inr ⟨by rw [ha]; exact hb, by omega⟩)

theorem entryBefore_total_of_ne {x y : MergeEntry} (h : x.1 ≠ y.1) :
    entryBefore x y = true ∨ entryBefore y x = true := by
  rcases byteCmp_trichotomy (streamKeyOf x.2) (streamKeyOf y.2) with hc | hc | hc
  · exact Or.inl ((entryBefore_iff x y).2 (Or.inl hc))
  · have hk := (byteCmp_eq_iff _ _).1 hc
    rcases Nat.lt_or_ge x.1 y.1 with hlt | hge
    · exact Or.inl ((entryBefore_iff x y).2 (Or.inr ⟨hk, hlt⟩))
    · refine Or.inr ((entryBefore_iff y x).2 (Or.inr ⟨hk.symm, ?_⟩))
      omega
  · exact Or.inr ((entryBefore_iff y x).2 (Or.inl ((byteCmp_gt_iff _ _).1 hc)))

/-- BinaryHeap::pop / peek on the list model: extract the (unique,
leftmost) entry no other entry orders before. -/
def popMin : List MergeEntry → Option (MergeEntry × List MergeEntry)
  | [] => none
  | x :: xs =>
    match popMin xs with
    | none => some (x, [])
    | some (m, rest) =>
      if entryBefore m x then some (m, x :: rest) else some (x, xs)

theorem popMin_none_iff (h : List MergeEntry) : popMin h = none ↔ h = [] := by
  cases h with
  | nil => simp [popMin]
  | cons x xs =>
    simp only [popMin]
    rcases hp : popMin xs with _ | ⟨m, rest⟩
    · simp
    · simp only [hp]
      split <;> simp

theorem popMin_perm {h : List MergeEntry} {m : MergeEntry}
    {rest : List MergeEntry} (hp : popMin h = some (m, rest)) :
    h.Perm (m :: rest) := by
  induction h generalizing m rest with
  | nil => simp [popMin] at hp
  | cons x xs ih =>
    rcases hp2 : popMin xs with _ | ⟨m2, rest2⟩
    · have hxs : xs = [] := (popMin_none_iff xs).1 hp2
      subst hxs
      simp only [popMin] at hp
      cases hp
      exact List.Perm.refl _
    · simp only [popMin, hp2] at hp
      split at hp
      · rename_i hbef
        cases hp
        exact (List.Perm.cons x (ih hp2)).trans (List.Perm.swap _ x _)
      · cases hp
        exact List.Perm.refl _

theorem popMin_min {h : List MergeEntry} {m : MergeEntry}
    {rest : List MergeEntry} (hp : popMin h = some (m, rest)) :
    ∀ x ∈ h, entryBefore x m = false := by
  induction h generalizing m rest with
  | nil => simp [popMin] at hp
  | cons y ys ih =>
    rcases hp2 : popMin ys with _ | ⟨m2, rest2⟩
    · have hys : ys = [] := (popMin_none_iff ys).1 hp2
      subst hys
      simp only [popMin] at hp
      cases hp
      intro x hx
      rcases List.mem_cons.1 hx with h1 | h1
      · rw [h1]
        exact entryBefore_irrefl _
      · exact absurd h1 (List.not_mem_nil x)
    · simp only [popMin, hp2] at hp
      split at hp
      · rename_i hbef
        cases hp
        intro x hx
        rcases List.mem_cons.1 hx with h1 | h1
        · rw [h1]
          exact entryBefore_asymm hbef
        · exact ih hp2 x h1
      · rename_i hbef
        cases hp
        intro x hx
        rcases List.mem_cons.1 hx with h1 | h1
        · rw [h1]
          exact entryBefore_irrefl _
        · exact entryBefore_negtrans (ih hp2 x h1) (Bool.eq_false_iff.2 hbef)

/-- Total number of entries remaining across a heap. -/
def heapTotal (h : List MergeEntry) : Nat := (h.map (fun e => e.2.length)).sum

theorem heapTotal_perm {h1 h2 : List MergeEntry} (hp : h1.Perm h2) :
    heapTotal h1 = heapTotal h2 := by
  unfold heapTotal
  exact List.Perm.sum_eq (hp.map _)

theorem heapTotal_cons (m : MergeEntry) (rest : List MergeEntry) :
    heapTotal (m :: rest) = m.2.length + heapTotal rest := by
  unfold heapTotal
  simp

/-- A strictly key-ascending stream (each iterator yields ascending
keys; blocks and memtables provide this). -/
def sortedStream (l : List (Bytes × Bytes)) : Prop :=
  List.Pairwise (fun x y => bLt x.1 y.1) l

/-- The while-let peek_mut loop of MergeIterator::next: while the heap
top's key equals the outdated key, advance that iterator; drop it when
it runs out, sift it back otherwise (inner next never errs in the
stream model, so the error-drop arm of the source is dead here). -/
def skipOutdated (outdated : Bytes) (heap : List MergeEntry) : List MergeEntry :=
  match hpop : popMin heap with
  | none => heap
  | some (top, rest) =>
    if streamKeyOf top.2 = outdated then
      (if hEmpty : (top.2.tail).isEmpty then skipOutdated outdated rest
       else skipOutdated outdated ((top.1, top.2.tail) :: rest))
    else heap
termination_by heap.length + heapTotal heap
decreasing_by
  · have hperm := popMin_perm hpop
    have h1 := hperm.length_eq
    have h2 := heapTotal_perm hperm
    have h3 := heapTotal_cons top rest
    simp at h1
    omega
  · have hperm := popMin_perm hpop
    have h1 := hperm.length_eq
    have h2 := heapTotal_perm hperm
    have h3 := heapTotal_cons top rest
    have h4 := heapTotal_cons (top.1, top.2.tail) rest
    have h5 : top.2.tail ≠ [] := by
      intro hx
      rw [hx] at hEmpty
      simp at hEmpty
    have h6 : top.2.tail.length = top.2.length - 1 := List.length_tail top.2
    have h7 : 1 ≤ top.2.tail.length := List.length_pos.2 h5
    have h8 : ((top.1, top.2.tail) : MergeEntry).2.length = top.2.tail.length := rfl
    simp only [List.length_cons]
    simp at h1
    omega

theorem skipOutdated_eq_none {k : Bytes} {h : List MergeEntry}
    (hpop : popMin h = none) : skipOutdated k h = h := by
  conv_lhs => rw [skipOutdated.eq_def]
  split
  · rfl
  · rename_i top rest heq
    rw [hpop] at heq
    cases heq

theorem skipOutdated_eq_drop {k : Bytes} {h : List MergeEntry}
    {top : MergeEntry} {rest : List MergeEntry}
    (hpop : popMin h = some (top, rest)) (hk : streamKeyOf top.2 = k)
    (he : top.2.tail.isEmpty = true) :
    skipOutdated k h = skipOutdated k rest := by
  conv_lhs => rw [skipOutdated.eq_def]
  split
  · rename_i heq
    rw [hpop] at heq
    cases heq
  · rename_i top2 rest2 heq
    rw [hpop] at heq
    cases heq
    rw [if_pos hk, dif_pos he]

theorem skipOutdated_eq_adv {k : Bytes} {h : List MergeEntry}
    {top : MergeEntry} {rest : List MergeEntry}
    (hpop : popMin h = some (top, rest)) (hk : streamKeyOf top.2 = k)
    (he : top.2.tail.isEmpty = false) :
    skipOutdated k h = skipOutdated k ((top.1, top.2.tail) :: rest) := by
  conv_lhs => rw [skipOutdated.eq_def]
  split
  · rename_i heq
    rw [hpop] at heq
    cases heq
  · rename_i top2 rest2 heq
    rw [hpop] at heq
    cases heq
    rw [if_pos hk, dif_neg (by rw [he]; exact Bool.false_ne_true)]

theorem skipOutdated_eq_stop {k : Bytes} {h : List MergeEntry}
    {top : MergeEntry} {rest : List MergeEntry}
    (hpop : popMin h = some (top, rest)) (hk : ¬ streamKeyOf top.2 = k) :
    skipOutdated k h = h := by
  conv_lhs => rw [skipOutdated.eq_def]
  split
  · rfl
  · rename_i top2 rest2 heq
    rw [hpop] at heq
    cases heq
    rw [if_neg hk]

theorem skipOutdated_total_le (k : Bytes) (h : List MergeEntry) :
    heapTotal (skipOutdated k h) ≤ heapTotal h := by
  induction h using skipOutdated.induct with
  | outdated => exact k
  | case1 h hpop =>
    rw [skipOutdated_eq_none hpop]
  | case2 h top rest hpop hk hEmpty ih =>
    rw [skipOutdated_eq_drop hpop hk hEmpty]
    have h2 := heapTotal_perm (popMin_perm hpop)
    have h3 := heapTotal_cons top rest
    omega
  | case3 h top rest hpop hk hEmpty ih =>
    rw [skipOutdated_eq_adv hpop hk (Bool.eq_false_iff.2 hEmpty)]
    have h2 := heapTotal_perm (popMin_perm hpop)
    have h3 := heapTotal_cons top rest
    have h4 := heapTotal_cons (top.1, top.2.tail) rest
    have h6 : top.2.tail.length = top.2.length - 1 := List.length_tail top.2
    have h8 : ((top.1, top.2.tail) : MergeEntry).2.length = top.2.tail.length := rfl
    omega
  | case4 h top rest hpop hk =>
    rw [skipOutdated_eq_stop hpop hk]

theorem skipOutdated_valid (k : Bytes) (h : List MergeEntry) :
    (∀ m ∈ h, m.2.isEmpty = false) →
    ∀ m ∈ skipOutdated k h, m.2.isEmpty = false := by
  induction h using skipOutdated.induct with
  | outdated => exact k
  | case1 h hpop =>
    intro hv
    rw [skipOutdated_eq_none hpop]
    exact hv
  | case2 h top rest hpop hk hEmpty ih =>
    intro hv
    rw [skipOutdated_eq_drop hpop hk hEmpty]
    refine ih ?_
    intro m hm
    exact hv m (((popMin_perm hpop).mem_iff).2 (List.mem_cons_of_mem top hm))
  | case3 h top rest hpop hk hEmpty ih =>
    intro hv
    rw [skipOutdated_eq_adv hpop hk (Bool.eq_false_iff.2 hEmpty)]
    refine ih ?_
    intro m hm
    rcases List.mem_cons.1 hm with h1 | h1
    · rw [h1]
      show top.2.tail.isEmpty = false
      exact Bool.eq_false_iff.2 hEmpty
    · exact hv m (((popMin_perm hpop).mem_iff).2 (List.mem_cons_of_mem top h1))
  | case4 h top rest hpop hk =>
    intro hv
    rw [skipOutdated_eq_stop hpop hk]
    exact hv

theorem skipOutdated_provenance (k : Bytes) (h : List MergeEntry) :
    ∀ m2 ∈ skipOutdated k h, ∃ m ∈ h, m2.1 = m.1 ∧
      ∃ dropped, m.2 = dropped ++ m2.2 ∧ ∀ e ∈ dropped, e.1 = k := by
  induction h using skipOutdated.induct with
  | outdated => exact k
  | case1 h hpop =>
    rw [skipOutdated_eq_none hpop]
    intro m2 hm2
    exact ⟨m2, hm2, rfl, [], rfl, fun e he => absurd he (List.not_mem_nil e)⟩
  | case2 h top rest hpop hk hEmpty ih =>
    rw [skipOutdated_eq_drop hpop hk hEmpty]
    intro m2 hm2
    obtain ⟨m, hm, h1, dropped, h2, h3⟩ := ih m2 hm2
    exact ⟨m, ((popMin_perm hpop).mem_iff).2 (List.mem_cons_of_mem top hm),
      h1, dropped, h2, h3⟩
  | case3 h top rest hpop hk hEmpty ih =>
    rw [skipOutdated_eq_adv hpop hk (Bool.eq_false_iff.2 hEmpty)]
    intro m2 hm2
    obtain ⟨m, hm, h1, dropped, h2, h3⟩ := ih m2 hm2
    rcases List.mem_cons.1 hm with hcase | hcase
    · subst hcase
      cases htop : top.2 with
      | nil =>
        exfalso
        rw [htop] at hEmpty
        exact hEmpty rfl
      | cons hd tl =>
        refine ⟨top, ((popMin_perm hpop).mem_iff).2 (List.mem_cons_self top rest),
          h1, hd :: dropped, ?_, ?_⟩
        · rw [htop]
          have h2b : top.2.tail = dropped ++ m2.2 := h2
          rw [htop] at h2b
          simp at h2b
          rw [List.cons_append, h2b]
        · intro e he
          rcases List.mem_cons.1 he with he1 | he1
          · subst he1
            have : streamKeyOf top.2 = e.1 := by
              rw [htop]
              rfl
            rw [← this, hk]
          · exact h3 e he1
    · exact ⟨m, ((popMin_perm hpop).mem_iff).2 (List.mem_cons_of_mem top hcase),
        h1, dropped, h2, h3⟩
  | case4 h top rest hpop hk =>
    rw [skipOutdated_eq_stop hpop hk]
    intro m2 hm2
    exact ⟨m2, hm2, rfl, [], rfl, fun e he => absurd he (List.not_mem_nil e)⟩

theorem skipOutdated_subperm_idx (k : Bytes) (h : List MergeEntry) :
    ((skipOutdated k h).map Prod.fst).Subperm (h.map Prod.fst) := by
  induction h using skipOutdated.induct with
  | outdated => exact k
  | case1 h hpop =>
    rw [skipOutdated_eq_none hpop]
  | case2 h top rest hpop hk hEmpty ih =>
    rw [skipOutdated_eq_drop hpop hk hEmpty]
    refine ih.trans ?_
    have hperm := (popMin_perm hpop).map Prod.fst
    have hsub : (rest.map Prod.fst).Sublist ((top :: rest).map Prod.fst) := by
      simp
    exact hsub.subperm.trans hperm.symm.subperm
  | case3 h top rest hpop hk hEmpty ih =>
    rw [skipOutdated_eq_adv hpop hk (Bool.eq_false_iff.2 hEmpty)]
    refine ih.trans ?_
    have heq : (((top.1, top.2.tail) :: rest).map Prod.fst) =
        ((top :: rest).map Prod.fst) := by
      simp
    rw [heq]
    exact ((popMin_perm hpop).map Prod.fst).symm.subperm
  | case4 h top rest hpop hk =>
    rw [skipOutdated_eq_stop hpop hk]

theorem skipOutdated_above (k : Bytes) (h : List MergeEntry) :
    (∀ m ∈ h, sortedStream m.2) → (∀ m ∈ h, m.2.isEmpty = false) →
    (∀ m ∈ h, bLe k (streamKeyOf m.2)) →
    ∀ m2 ∈ skipOutdated k h, bLt k (streamKeyOf m2.2) := by
  induction h using skipOutdated.induct with
  | outdated => exact k
  | case1 h hpop =>
    intro _ _ _ m2 hm2
    rw [skipOutdated_eq_none hpop] at hm2
    rw [(popMin_none_iff h).1 hpop] at hm2
    exact absurd hm2 (List.not_mem_nil m2)
  | case2 h top rest hpop hk hEmpty ih =>
    intro hs hv hge
    rw [skipOutdated_eq_drop hpop hk hEmpty]
    refine ih ?_ ?_ ?_
    all_goals
      intro m hm
    · exact hs m (((popMin_perm hpop).mem_iff).2 (List.mem_cons_of_mem top hm))
    · exact hv m (((popMin_perm hpop).mem_iff).2 (List.mem_cons_of_mem top hm))
    · exact hge m (((popMin_perm hpop).mem_iff).2 (List.mem_cons_of_mem top hm))
  | case3 h top rest hpop hk hEmpty ih =>
    intro hs hv hge
    rw [skipOutdated_eq_adv hpop hk (Bool.eq_false_iff.2 hEmpty)]
    have htopmem : top ∈ h :=
      ((popMin_perm hpop).mem_iff).2 (List.mem_cons_self top rest)
    refine ih ?_ ?_ ?_
    · intro m hm
      rcases List.mem_cons.1 hm with h1 | h1
      · rw [h1]
        show sortedStream top.2.tail
        have := hs top htopmem
        unfold sortedStream at this ⊢
        exact this.sublist (List.tail_sublist top.2)
      · exact hs m (((popMin_perm hpop).mem_iff).2 (List.mem_cons_of_mem top h1))
    · intro m hm
      rcases List.mem_cons.1 hm with h1 | h1
      · rw [h1]
        show top.2.tail.isEmpty = false
        exact Bool.eq_false_iff.2 hEmpty
      · exact hv m (((popMin_perm hpop).mem_iff).2 (List.mem_cons_of_mem top h1))
    · intro m hm
      rcases List.mem_cons.1 hm with h1 | h1
      · rw [h1]
        show bLe k (streamKeyOf top.2.tail)
        cases htop : top.2 with
        | nil =>
          exfalso
          rw [htop] at hEmpty
          exact hEmpty rfl
        | cons hd tl =>
          cases htl : tl with
          | nil =>
            exfalso
            rw [htop, htl] at hEmpty
            exact hEmpty rfl
          | cons hd2 tl2 =>
            have hsorted := hs top htopmem
            rw [htop, htl] at hsorted
            have hlt : bLt hd.1 hd2.1 :=
              (List.pairwise_cons.1 hsorted).1 hd2 (List.mem_cons_self hd2 tl2)
            have hkhd : hd.1 = k := by
              have : streamKeyOf top.2 = hd.1 := by rw [htop]; rfl
              rw [← this, hk]
            have hlt2 : bLt k hd2.1 := by rw [← hkhd]; exact hlt
            exact bLe_of_bLt hlt2
      · exact hge m (((popMin_perm hpop).mem_iff).2 (List.mem_cons_of_mem top h1))
  | case4 h top rest hpop hk =>
    intro hs hv hge
    rw [skipOutdated_eq_stop hpop hk]
    intro m2 hm2
    have htopmem : top ∈ h :=
      ((popMin_perm hpop).mem_iff).2 (List.mem_cons_self top rest)
    have htopgt : bLt k (streamKeyOf top.2) := by
      rcases (bLe_iff _ _).1 (hge top htopmem) with h1 | h1
      · exact h1
      · exact absurd h1.symm hk
    have hmin := popMin_min hpop m2 hm2
    have hle : bLe (streamKeyOf top.2) (streamKeyOf m2.2) := by
      rcases (entryBefore_false_iff m2 top).1 hmin with h1 | ⟨h1, h2⟩
      · exact bLe_of_bLt h1
      · rw [h1]
        intro hgt
        rw [byteCmp_self] at hgt
        exact Ordering.noConfusion hgt
    exact bLt_of_bLt_of_bLe htopgt hle

theorem skipOutdated_drops (k : Bytes) (h : List MergeEntry) :
    ∀ j rem, (j, rem) ∈ h →
      (∃ rem2, (j, rem2) ∈ skipOutdated k h ∧ ∃ dropped, rem = dropped ++ rem2 ∧
        ∀ e ∈ dropped, e.1 = k) ∨
      (∀ e ∈ rem, e.1 = k) := by
  induction h using skipOutdated.induct with
  | outdated => exact k
  | case1 h hpop =>
    intro j rem hm
    rw [skipOutdated_eq_none hpop]
    exact Or.inl ⟨rem, hm, [], rfl, fun e he => absurd he (List.not_mem_nil e)⟩
  | case2 h top rest hpop hk hEmpty ih =>
    intro j rem hm
    rw [skipOutdated_eq_drop hpop hk hEmpty]
    rcases List.mem_cons.1 (((popMin_perm hpop).mem_iff).1 hm) with h1 | h1
    · refine Or.inr ?_
      intro e he
      have hrem : rem = top.2 := by rw [← h1]
      rw [hrem] at he
      cases htop : top.2 with
      | nil =>
        rw [htop] at he
        exact absurd he (List.not_mem_nil e)
      | cons hd tl =>
        have htl : tl = [] := by
          rw [htop] at hEmpty
          simpa using hEmpty
        rw [htop, htl] at he
        have : e = hd := by
          rcases List.mem_cons.1 he with h2 | h2
          · exact h2
          · exact absurd h2 (List.not_mem_nil e)
        rw [this]
        have : streamKeyOf top.2 = hd.1 := by rw [htop]; rfl
        rw [← this, hk]
    · exact ih j rem h1
  | case3 h top rest hpop hk hEmpty ih =>
    intro j rem hm
    rw [skipOutdated_eq_adv hpop hk (Bool.eq_false_iff.2 hEmpty)]
    rcases List.mem_cons.1 (((popMin_perm hpop).mem_iff).1 hm) with h1 | h1
    · have hj : top.1 = j := by rw [← h1]
      have hrem : rem = top.2 := by rw [← h1]
      have hex : ∃ hd tl, top.2 = hd :: tl := by
        cases htopc : top.2 with
        | nil =>
          exfalso
          rw [htopc] at hEmpty
          exact hEmpty rfl
        | cons a b => exact ⟨a, b, rfl⟩
      obtain ⟨hd, tl, htop⟩ := hex
      have htl2 : top.2.tail = tl := by rw [htop]; rfl
      have hkhd : hd.1 = k := by
        have : streamKeyOf top.2 = hd.1 := by rw [htop]; rfl
        rw [← this, hk]
      have hmemadv : (j, top.2.tail) ∈ (top.1, top.2.tail) :: rest := by
        rw [hj]
        exact List.mem_cons_self _ rest
      rcases ih j top.2.tail hmemadv with hleft | hright
      · obtain ⟨rem2, hmem2, dropped, hdrop, hkeys⟩ := hleft
        refine Or.inl ⟨rem2, hmem2, hd :: dropped, ?_, ?_⟩
        · rw [htl2] at hdrop
          rw [hrem, htop, List.cons_append, hdrop]
        · intro e he
          rcases List.mem_cons.1 he with h2 | h2
          · rw [h2, hkhd]
          · exact hkeys e h2
      · refine Or.inr ?_
        intro e he
        rw [hrem, htop] at he
        rcases List.mem_cons.1 he with h2 | h2
        · rw [h2, hkhd]
        · refine hright e ?_
          rw [htl2]
          exact h2
    · exact ih j rem (List.mem_cons_of_mem _ h1)
  | case4 h top rest hpop hk =>
    intro j rem hm
    rw [skipOutdated_eq_stop hpop hk]
    exact Or.inl ⟨rem, hm, [], rfl, fun e he => absurd he (List.not_mem_nil e)⟩

/-- The N-way merging iterator (struct MergeIterator): the heap and the
current slot. -/
structure MergeIterator where
  iters : List MergeEntry
  current : Option MergeEntry
deriving DecidableEq, Repr

/-- MergeIterator::create: empty input leaves current None; when every
iterator is invalid the last one is wrapped with index 0 into current;
otherwise the valid iterators enter the heap with their positional
indices and the heap's top is popped into current (the unwrap there
cannot fail; the dead arm mirrors it with a None current). -/
def MergeIterator.create (inputs : List (List (Bytes × Bytes))) : MergeIterator :=
  if inputs = [] then MergeIterator.mk [] none
  else if inputs.all (fun l => l.isEmpty) then
    MergeIterator.mk [] (some (0, inputs.getLastD []))
  else
    match popMin ((inputs.enum).filter (fun e => !e.2.isEmpty)) with
    | some (m, rest) => MergeIterator.mk rest (some m)
    | none => MergeIterator.mk [] none

/-- StorageIterator::key for MergeIterator (default key when current is
None). -/
def MergeIterator.key (s : MergeIterator) : Bytes :=
  match s.current with
  | some c => streamKeyOf c.2
  | none => []

/-- StorageIterator::value for MergeIterator. -/
def MergeIterator.value (s : MergeIterator) : Bytes :=
  match s.current with
  | some c => streamValueOf c.2
  | none => []

/-- StorageIterator::is_valid for MergeIterator. -/
def MergeIterator.is_valid (s : MergeIterator) : Bool :=
  match s.current with
  | some c => !c.2.isEmpty
  | none => false

/-- Registration index of the current slot. -/
def MergeIterator.curIdx (s : MergeIterator) : Nat :=
  match s.current with
  | some c => c.1
  | none => 0

/-- MergeIterator::next.  None models the panic of
self.current.as_mut().unwrap() on a None current.  Otherwise: run the
skip loop over the heap with the outdated key, advance current, replace
it by the popped heap top when it ran out, and otherwise swap with the
top when the top orders before it. -/
def MergeIterator.next (s : MergeIterator) : Option MergeIterator :=
  match s.current with
  | none => none
  | some cur =>
    if (cur.2.tail).isEmpty then
      match popMin (skipOutdated (streamKeyOf cur.2) s.iters) with
      | some (top, rest) => some (MergeIterator.mk rest (some top))
      | none => some (MergeIterator.mk
          (skipOutdated (streamKeyOf cur.2) s.iters) (some (cur.1, cur.2.tail)))
    else
      match popMin (skipOutdated (streamKeyOf cur.2) s.iters) with
      | some (top, rest) =>
        if entryBefore top (cur.1, cur.2.tail) = true ∧ top.2.isEmpty = false then
          some (MergeIterator.mk ((cur.1, cur.2.tail) :: rest) (some top))
        else some (MergeIterator.mk
          (skipOutdated (streamKeyOf cur.2) s.iters) (some (cur.1, cur.2.tail)))
      | none => some (MergeIterator.mk
          (skipOutdated (streamKeyOf cur.2) s.iters) (some (cur.1, cur.2.tail)))

/-- Entries remaining in the whole iterator state. -/
def stateTotal (s : MergeIterator) : Nat :=
  heapTotal s.iters +
    (match s.current with
     | some c => c.2.length
     | none => 0)

theorem mergeNext_total {s s2 : MergeIterator} (hv : s.is_valid = true)
    (hn : s.next = some s2) : stateTotal s2 < stateTotal s := by
  rcases hcur : s.current with _ | cur
  · unfold MergeIterator.is_valid at hv
    rw [hcur] at hv
    exact Bool.noConfusion hv
  · have hcurne : cur.2 ≠ [] := by
      unfold MergeIterator.is_valid at hv
      rw [hcur] at hv
      simp at hv
      exact hv
    have hlen : 1 ≤ cur.2.length := List.length_pos.2 hcurne
    have htail : cur.2.tail.length = cur.2.length - 1 := List.length_tail cur.2
    have hskip := skipOutdated_total_le (streamKeyOf cur.2) s.iters
    have hstate : stateTotal s = heapTotal s.iters + cur.2.length := by
      unfold stateTotal
      rw [hcur]
    simp only [MergeIterator.next, hcur] at hn
    split at hn
    · rcases hp : popMin (skipOutdated (streamKeyOf cur.2) s.iters)
          with _ | ⟨top, rest⟩ <;> rw [hp] at hn <;> cases hn
      · have h2 : stateTotal (MergeIterator.mk
            (skipOutdated (streamKeyOf cur.2) s.iters) (some (cur.1, cur.2.tail)))
            = heapTotal (skipOutdated (streamKeyOf cur.2) s.iters) +
              cur.2.tail.length := rfl
        omega
      · have hperm := heapTotal_perm (popMin_perm hp)
        have hcons := heapTotal_cons top rest
        have h2 : stateTotal (MergeIterator.mk rest (some top)) =
            heapTotal rest + top.2.length := rfl
        omega
    · rcases hp : popMin (skipOutdated (streamKeyOf cur.2) s.iters)
          with _ | ⟨top, rest⟩ <;> simp only [hp] at hn
      · cases hn
        have h2 : stateTotal (MergeIterator.mk
            (skipOutdated (streamKeyOf cur.2) s.iters) (some (cur.1, cur.2.tail)))
            = heapTotal (skipOutdated (streamKeyOf cur.2) s.iters) +
              cur.2.tail.length := rfl
        omega
      · have hperm := heapTotal_perm (popMin_perm hp)
        have hcons := heapTotal_cons top rest
        by_cases hcond : entryBefore top (cur.1, cur.2.tail) = true ∧
            top.2.isEmpty = false
        · rw [if_pos hcond] at hn
          cases hn
          have h2 : stateTotal (MergeIterator.mk ((cur.1, cur.2.tail) :: rest)
              (some top)) = (((cur.1, cur.2.tail) : MergeEntry).2.length +
                heapTotal rest) + top.2.length := by
            unfold stateTotal
            rw [heapTotal_cons]
          have h3 : ((cur.1, cur.2.tail) : MergeEntry).2.length =
              cur.2.tail.length := rfl
          omega
        · rw [if_neg hcond] at hn
          cases hn
          have h2 : stateTotal (MergeIterator.mk
              (skipOutdated (streamKeyOf cur.2) s.iters) (some (cur.1, cur.2.tail)))
              = heapTotal (skipOutdated (streamKeyOf cur.2) s.iters) +
                cur.2.tail.length := rfl
          omega

/-- The stream of (index, key, value) triples a MergeIterator yields
when driven with key/value/next until is_valid turns false. -/
def mergeEmit (s : MergeIterator) : List (Nat × (Bytes × Bytes)) :=
  if hv : s.is_valid = true then
    match hn : s.next with
    | some s2 => (s.curIdx, (s.key, s.value)) :: mergeEmit s2
    | none => []
  else []
termination_by stateTotal s
decreasing_by exact mergeNext_total hv hn

theorem enumFrom_filter_valid_ne_nil (inputs : List (List (Bytes × Bytes))) :
    ∀ n, inputs.all (fun l => l.isEmpty) = false →
      (List.enumFrom n inputs).filter (fun e => !e.2.isEmpty) ≠ [] := by
  induction inputs with
  | nil =>
    intro n hall
    simp at hall
  | cons x xs ih =>
    intro n hall
    have hcond : (!((n, x) : Nat × List (Bytes × Bytes)).2.isEmpty) =
        (!x.isEmpty) := rfl
    rcases hx : x.isEmpty with _ | _
    · intro hcontra
      rw [List.enumFrom_cons, List.filter_cons, hcond, hx] at hcontra
      simp only [Bool.not_false] at hcontra
      rw [if_pos trivial] at hcontra
      exact List.cons_ne_nil _ _ hcontra
    · have hxs : xs.all (fun l => l.isEmpty) = false := by
        rw [List.all_cons, hx] at hall
        simpa using hall
      intro hcontra
      rw [List.enumFrom_cons, List.filter_cons, hcond, hx] at hcontra
      simp only [Bool.not_true] at hcontra
      rw [if_neg (show ¬ (false = true) from by decide)] at hcontra
      exact ih (n + 1) hxs hcontra

/-- C10: next() on a MergeIterator created from an empty list hits the
unwrap of a None current (modelled as None); created from a non-empty
list, current is Some, and every successful next() keeps it Some, so the
unwrap cannot fail afterwards. -/
theorem mergeIterator_current_unwrap :
    ((MergeIterator.create []).current = none ∧
        (MergeIterator.create []).next = none) ∧
      (∀ inputs : List (List (Bytes × Bytes)), inputs ≠ [] →
        (MergeIterator.create inputs).current.isSome = true) ∧
      (∀ s s2 : MergeIterator, s.current.isSome = true →
        s.next = some s2 → s2.current.isSome = true) := by
  refine ⟨⟨rfl, rfl⟩, ?_, ?_⟩
  · intro inputs hne
    unfold MergeIterator.create
    rw [if_neg hne]
    by_cases hall : inputs.all (fun l => l.isEmpty) = true
    · rw [if_pos hall]
      rfl
    · rw [if_neg hall]
      have hfil : (inputs.enum.filter (fun e => !e.2.isEmpty)) ≠ [] := by
        have := enumFrom_filter_valid_ne_nil inputs 0
          (Bool.eq_false_iff.2 hall)
        simpa [List.enum] using this
      rcases hp : popMin (inputs.enum.filter (fun e => !e.2.isEmpty))
          with _ | ⟨m, rest⟩
      · exact absurd ((popMin_none_iff _).1 hp) hfil
      · simp only [hp]
        rfl
  · intro s s2 hsome hn
    rcases hcur : s.current with _ | cur
    · rw [hcur] at hsome
      exact Bool.noConfusion hsome
    · simp only [MergeIterator.next, hcur] at hn
      split at hn
      · rcases hp : popMin (skipOutdated (streamKeyOf cur.2) s.iters)
            with _ | ⟨top, rest⟩ <;> simp only [hp] at hn <;> cases hn <;> rfl
      · rcases hp : popMin (skipOutdated (streamKeyOf cur.2) s.iters)
            with _ | ⟨top, rest⟩ <;> simp only [hp] at hn
        · cases hn
          rfl
        · by_cases hcond : entryBefore top (cur.1, cur.2.tail) = true ∧
              top.2.isEmpty = false
          · rw [if_pos hcond] at hn
            cases hn
            rfl
          · rw [if_neg hcond] at hn
            cases hn
            rfl

/-- Closed instantiation of mergeIterator_current_unwrap at a singleton
input list and one concrete next() step. -/
theorem mergeIterator_current_unwrap_witness :
    (MergeIterator.create [[([97], [49])]]).current.isSome = true ∧
      (MergeIterator.mk [] (some (1, [([98], [50])]))).current.isSome = true := by
  constructor
  · exact mergeIterator_current_unwrap.2.1 [[([97], [49])]] (by simp)
  · refine mergeIterator_current_unwrap.2.2
      (MergeIterator.mk [(1, [([98], [50])])] (some (0, [([97], [49])])))
      (MergeIterator.mk [] (some (1, [([98], [50])]))) rfl ?_
    have hpop1 : popMin [((1, [([98], [50])]) : MergeEntry)] =
        some ((1, [([98], [50])]), []) := rfl
    have hskip := skipOutdated_eq_stop hpop1
      (show ¬ streamKeyOf ((1, [([98], [50])]) : MergeEntry).2 = [97] from
        by decide)
    simp only [MergeIterator.next]
    rw [show streamKeyOf ((0, [([97], [49])]) : MergeEntry).2 = [97] from rfl]
    rw [hskip]
    rfl

/-- A key already emitted relative to a bound: at most the bound (no key
counts as emitted before the first emission). -/
def keyDone (bound : Option Bytes) (k : Bytes) : Prop :=
  match bound with
  | none => False
  | some kb => bLe k kb

/-- All live entries of a merge state: the current slot followed by the
heap. -/
def mems (s : MergeIterator) : List MergeEntry :=
  (match s.current with
   | some c => [c]
   | none => []) ++ s.iters

theorem mems_some {s : MergeIterator} {c : MergeEntry}
    (hc : s.current = some c) : mems s = c :: s.iters := by
  unfold mems
  rw [hc]
  rfl

/-- The internal invariant MergeIterator::next preserves, relative to
the creation inputs and the last emitted key: current is occupied, heap
entries are valid, every live entry is a suffix of its input whose
consumed prefix was already emitted, every input is either live or fully
consumed, registration indices are distinct, current orders strictly
before every heap entry while valid, an exhausted current coexists only
with an empty heap, and every remaining key lies strictly above the last
emitted key. -/
structure MergeInv (inputs : List (List (Bytes × Bytes))) (bound : Option Bytes)
    (s : MergeIterator) : Prop where
  cur_some : s.current.isSome = true
  heap_valid : ∀ m ∈ s.iters, m.2.isEmpty = false
  mem_suffix : ∀ m ∈ mems s, ∃ pre, inputs.getD m.1 [] = pre ++ m.2 ∧
    ∀ e ∈ pre, keyDone bound e.1
  coverage : ∀ j : Nat, (∃ rem, ((j, rem) : MergeEntry) ∈ mems s) ∨
    (∀ e ∈ inputs.getD j [], keyDone bound e.1)
  idx_nodup : ((mems s).map Prod.fst).Nodup
  cur_min : ∀ c, s.current = some c → c.2.isEmpty = false →
    ∀ m ∈ s.iters, entryBefore c m = true
  cur_invalid_heap : ∀ c, s.current = some c → c.2.isEmpty = true → s.iters = []
  above_bound : ∀ kb, bound = some kb → ∀ m ∈ mems s, ∀ e ∈ m.2, bLt kb e.1

theorem sorted_getD (inputs : List (List (Bytes × Bytes)))
    (hsorted : ∀ l ∈ inputs, sortedStream l) (j : Nat) :
    sortedStream (inputs.getD j []) := by
  by_cases hj : j < inputs.length
  · rw [List.getD_eq_getElem _ _ hj]
    exact hsorted _ (List.getElem_mem hj)
  · rw [List.getD_eq_default]
    · exact List.Pairwise.nil
    · omega

theorem sorted_suffix {pre l full : List (Bytes × Bytes)}
    (h : full = pre ++ l) (hs : sortedStream full) : sortedStream l := by
  unfold sortedStream at hs ⊢
  refine List.Pairwise.sublist ?_ hs
  rw [h]
  exact (List.suffix_append pre l).sublist

theorem elements_above {k : Bytes} {l : List (Bytes × Bytes)}
    (hs : sortedStream l) (hh : bLt k (streamKeyOf l)) :
    ∀ e ∈ l, bLt k e.1 := by
  cases l with
  | nil => intro e he; exact absurd he (List.not_mem_nil e)
  | cons hd tl =>
    intro e he
    rcases List.mem_cons.1 he with h1 | h1
    · rw [h1]
      exact hh
    · have hlt : bLt hd.1 e.1 := (List.pairwise_cons.1 hs).1 e h1
      exact byteCmp_lt_trans hh hlt

theorem nodup_of_subperm {l1 l2 : List Nat} (h : l1.Subperm l2)
    (h2 : l2.Nodup) : l1.Nodup := by
  obtain ⟨l, hperm, hsub⟩ := h
  exact hperm.nodup (hsub.nodup h2)

theorem mergeInv_keep (inputs : List (List (Bytes × Bytes))) (nb : Bytes)
    (cur1 : MergeEntry) (heap1 : List MergeEntry)
    (hvalid : ∀ m ∈ heap1, m.2.isEmpty = false)
    (hsufC : ∃ pre, inputs.getD cur1.1 [] = pre ++ cur1.2 ∧
      ∀ e ∈ pre, keyDone (some nb) e.1)
    (hsufH : ∀ m ∈ heap1, ∃ pre, inputs.getD m.1 [] = pre ++ m.2 ∧
      ∀ e ∈ pre, keyDone (some nb) e.1)
    (hcov : ∀ j : Nat, (∃ rem, ((j, rem) : MergeEntry) ∈
        mems (MergeIterator.mk heap1 (some cur1))) ∨
      (∀ e ∈ inputs.getD j [], keyDone (some nb) e.1))
    (hnodup : (cur1.1 :: heap1.map Prod.fst).Nodup)
    (hmin : cur1.2.isEmpty = false → ∀ m ∈ heap1, entryBefore cur1 m = true)
    (hinvheap : cur1.2.isEmpty = true → heap1 = [])
    (habove : ∀ e ∈ cur1.2, bLt nb e.1)
    (haboveH : ∀ m ∈ heap1, ∀ e ∈ m.2, bLt nb e.1) :
    MergeInv inputs (some nb) (MergeIterator.mk heap1 (some cur1)) := by
  have hm2 : mems (MergeIterator.mk heap1 (some cur1)) = cur1 :: heap1 :=
    mems_some rfl
  refine ⟨rfl, hvalid, ?_, hcov, ?_, ?_, ?_, ?_⟩
  · rw [hm2]
    intro m hm
    rcases List.mem_cons.1 hm with h1 | h1
    · rw [h1]
      exact hsufC
    · exact hsufH m h1
  · rw [hm2]
    simpa using hnodup
  · intro c hc hcv m hm
    have hc' : some cur1 = some c := hc
    cases hc'
    exact hmin hcv m hm
  · intro c hc hce
    have hc' : some cur1 = some c := hc
    cases hc'
    exact hinvheap hce
  · intro kb hkb m hm e he
    have hkb' : (some nb : Option Bytes) = some kb := hkb
    cases hkb'
    rw [hm2] at hm
    rcases List.mem_cons.1 hm with h1 | h1
    · rw [h1] at he
      exact habove e he
    · exact haboveH m h1 e he

theorem mergeInv_step (inputs : List (List (Bytes × Bytes)))
    (bound : Option Bytes) (s s2 : MergeIterator)
    (hsorted : ∀ l ∈ inputs, sortedStream l)
    (hinv : MergeInv inputs bound s)
    (hv : s.is_valid = true)
    (hn : s.next = some s2) :
    MergeInv inputs (some s.key) s2 := by
  rcases hcur : s.current with _ | cur
  · exfalso
    unfold MergeIterator.is_valid at hv
    rw [hcur] at hv
    exact Bool.noConfusion hv
  have hcurne : cur.2 ≠ [] := by
    unfold MergeIterator.is_valid at hv
    rw [hcur] at hv
    simpa using hv
  obtain ⟨hd, ctail, hcur2⟩ : ∃ hd ctail, cur.2 = hd :: ctail := by
    cases hc : cur.2 with
    | nil => exact absurd hc hcurne
    | cons a b => exact ⟨a, b, rfl⟩
  have hkeyK : s.key = streamKeyOf cur.2 := by
    unfold MergeIterator.key
    rw [hcur]
  have hKhd : streamKeyOf cur.2 = hd.1 := by
    rw [hcur2]
    rfl
  have hmems : mems s = cur :: s.iters := mems_some hcur
  have hcurmem : cur ∈ mems s := by
    rw [hmems]
    exact List.mem_cons_self _ _
  have hmem_sorted : ∀ m ∈ mems s, sortedStream m.2 := by
    intro m hm
    obtain ⟨pre, hpre, _⟩ := hinv.mem_suffix m hm
    exact sorted_suffix hpre (sorted_getD inputs hsorted m.1)
  have hcur_sorted : sortedStream cur.2 := hmem_sorted cur hcurmem
  have hiters_mem : ∀ m ∈ s.iters, m ∈ mems s := by
    intro m hm
    rw [hmems]
    exact List.mem_cons_of_mem _ hm
  have hiters_sorted : ∀ m ∈ s.iters, sortedStream m.2 := fun m hm =>
    hmem_sorted m (hiters_mem m hm)
  have hcurvalid : cur.2.isEmpty = false := by rw [hcur2]; rfl
  have hcmin := hinv.cur_min cur hcur hcurvalid
  have hge : ∀ m ∈ s.iters, bLe (streamKeyOf cur.2) (streamKeyOf m.2) := by
    intro m hm
    rcases (entryBefore_iff cur m).1 (hcmin m hm) with h1 | ⟨h1, _⟩
    · exact bLe_of_bLt h1
    · exact (bLe_iff _ _).2 (Or.inr h1)
  have hS1 : ∀ m ∈ skipOutdated (streamKeyOf cur.2) s.iters,
      m.2.isEmpty = false :=
    skipOutdated_valid _ _ hinv.heap_valid
  have hS4 : ∀ m ∈ skipOutdated (streamKeyOf cur.2) s.iters,
      bLt (streamKeyOf cur.2) (streamKeyOf m.2) :=
    skipOutdated_above _ _ hiters_sorted hinv.heap_valid hge
  have hS2 := skipOutdated_provenance (streamKeyOf cur.2) s.iters
  have hS3 := skipOutdated_subperm_idx (streamKeyOf cur.2) s.iters
  have hS5 := skipOutdated_drops (streamKeyOf cur.2) s.iters
  have hS_sorted : ∀ m2 ∈ skipOutdated (streamKeyOf cur.2) s.iters,
      sortedStream m2.2 := by
    intro m2 hm2
    obtain ⟨m, hm, _, dropped, hdrop, _⟩ := hS2 m2 hm2
    exact sorted_suffix hdrop (hiters_sorted m hm)
  have hF6 : ∀ m2 ∈ skipOutdated (streamKeyOf cur.2) s.iters,
      ∀ e ∈ m2.2, bLt (streamKeyOf cur.2) e.1 := by
    intro m2 hm2
    exact elements_above (hS_sorted m2 hm2) (hS4 m2 hm2)
  have hF7 : ∀ e ∈ cur.2.tail, bLt (streamKeyOf cur.2) e.1 := by
    rw [hKhd]
    have hpw : List.Pairwise (fun x y => bLt x.1 y.1) (hd :: ctail) := by
      rw [← hcur2]
      exact hcur_sorted
    intro e he
    refine (List.pairwise_cons.1 hpw).1 e ?_
    rw [hcur2] at he
    exact he
  have hkbk : ∀ kb, bound = some kb → bLt kb (streamKeyOf cur.2) := by
    intro kb hkb
    rw [hKhd]
    refine hinv.above_bound kb hkb cur hcurmem hd ?_
    rw [hcur2]
    exact List.mem_cons_self _ _
  have hdone_imp : ∀ e1, keyDone bound e1 → bLe e1 (streamKeyOf cur.2) := by
    intro e1 hdone
    cases hb : bound with
    | none =>
      rw [hb] at hdone
      exact (hdone : False).elim
    | some kb =>
      rw [hb] at hdone
      have h1 : bLe e1 kb := hdone
      exact bLe_of_bLt (bLt_of_bLe_of_bLt h1 (hkbk kb hb))
  have hsufC1 : ∃ pre, inputs.getD cur.1 [] = pre ++ cur.2.tail ∧
      ∀ e ∈ pre, keyDone (some s.key) e.1 := by
    obtain ⟨preC, hpreC, hpreCd⟩ := hinv.mem_suffix cur hcurmem
    refine ⟨preC ++ [hd], ?_, ?_⟩
    · rw [hpreC, hcur2]
      simp
    · intro e he
      rcases List.mem_append.1 he with h1 | h1
      · show bLe e.1 s.key
        rw [hkeyK]
        exact hdone_imp e.1 (hpreCd e h1)
      · have he2 : e = hd := by simpa using h1
        show bLe e.1 s.key
        rw [he2, hkeyK, hKhd]
        exact (bLe_iff _ _).2 (Or.inr rfl)
  have hsufH : ∀ m2 ∈ skipOutdated (streamKeyOf cur.2) s.iters,
      ∃ pre, inputs.getD m2.1 [] = pre ++ m2.2 ∧
        ∀ e ∈ pre, keyDone (some s.key) e.1 := by
    intro m2 hm2
    obtain ⟨m, hm, hidx, dropped, hdrop, hdropk⟩ := hS2 m2 hm2
    obtain ⟨pre, hpre, hpred⟩ := hinv.mem_suffix m (hiters_mem m hm)
    refine ⟨pre ++ dropped, ?_, ?_⟩
    · rw [hidx, hpre, hdrop, List.append_assoc]
    · intro e he
      rcases List.mem_append.1 he with h1 | h1
      · show bLe e.1 s.key
        rw [hkeyK]
        exact hdone_imp e.1 (hpred e h1)
      · show bLe e.1 s.key
        rw [hkeyK, hdropk e h1]
        exact (bLe_iff _ _).2 (Or.inr rfl)
  have hcov : ∀ (t : MergeIterator),
      (∀ m2 ∈ skipOutdated (streamKeyOf cur.2) s.iters, m2 ∈ mems t) →
      (((cur.1, cur.2.tail) : MergeEntry) ∈ mems t ∨ cur.2.tail = []) →
      ∀ j : Nat, (∃ rem, ((j, rem) : MergeEntry) ∈ mems t) ∨
        (∀ e ∈ inputs.getD j [], keyDone (some s.key) e.1) := by
    intro t hheapmem hcurmem2 j
    rcases hinv.coverage j with ⟨rem, hrem⟩ | hright
    · rw [hmems] at hrem
      rcases List.mem_cons.1 hrem with hcase | hcase
      · have hj : j = cur.1 := congrArg Prod.fst hcase
        rcases hcurmem2 with hin | hempty
        · refine Or.inl ⟨cur.2.tail, ?_⟩
          rw [hj]
          exact hin
        · refine Or.inr ?_
          obtain ⟨pre, hpre, hpred⟩ := hinv.mem_suffix cur hcurmem
          intro e he
          rw [hj, hpre] at he
          rcases List.mem_append.1 he with h1 | h1
          · show bLe e.1 s.key
            rw [hkeyK]
            exact hdone_imp e.1 (hpred e h1)
          · have hct : ctail = [] := by
              have h2 : cur.2.tail = ctail := by
                rw [hcur2]
                rfl
              rw [← h2]
              exact hempty
            rw [hcur2, hct] at h1
            have he2 : e = hd := by simpa using h1
            show bLe e.1 s.key
            rw [he2, hkeyK, hKhd]
            exact (bLe_iff _ _).2 (Or.inr rfl)
      · rcases hS5 j rem hcase with ⟨rem2, hmem2, _, _, _⟩ | hall
        · exact Or.inl ⟨rem2, hheapmem _ hmem2⟩
        · refine Or.inr ?_
          obtain ⟨pre, hpre, hpred⟩ := hinv.mem_suffix (j, rem) (hiters_mem _ hcase)
          have hpre2 : inputs.getD j [] = pre ++ rem := hpre
          intro e he
          rw [hpre2] at he
          rcases List.mem_append.1 he with h1 | h1
          · show bLe e.1 s.key
            rw [hkeyK]
            exact hdone_imp e.1 (hpred e h1)
          · show bLe e.1 s.key
            rw [hkeyK, hall e h1]
            exact (bLe_iff _ _).2 (Or.inr rfl)
    · refine Or.inr ?_
      intro e he
      show bLe e.1 s.key
      rw [hkeyK]
      exact hdone_imp e.1 (hright e he)
  have hnodup2 : (cur.1 :: s.iters.map Prod.fst).Nodup := by
    have h0 := hinv.idx_nodup
    rw [hmems] at h0
    simpa using h0
  have hcur_notin : cur.1 ∉ s.iters.map Prod.fst := (List.nodup_cons.1 hnodup2).1
  have hiters_nodup : (s.iters.map Prod.fst).Nodup := (List.nodup_cons.1 hnodup2).2
  have hskip_nodup :
      ((skipOutdated (streamKeyOf cur.2) s.iters).map Prod.fst).Nodup :=
    nodup_of_subperm hS3 hiters_nodup
  have hsubset : ∀ a, a ∈ (skipOutdated (streamKeyOf cur.2) s.iters).map Prod.fst →
      a ∈ s.iters.map Prod.fst := by
    obtain ⟨l, hpl, hsl⟩ := hS3
    intro a ha
    exact hsl.subset (hpl.mem_iff.2 ha)
  have hcur_notin_skip :
      cur.1 ∉ (skipOutdated (streamKeyOf cur.2) s.iters).map Prod.fst := by
    intro hin
    exact hcur_notin (hsubset _ hin)
  simp only [MergeIterator.next, hcur] at hn
  by_cases htate : (cur.2.tail).isEmpty = true
  · rw [if_pos htate] at hn
    have hctail : cur.2.tail = [] := by
      rcases hcc : cur.2.tail with _ | ⟨a, b⟩
      · rfl
      · rw [hcc] at htate
        simp at htate
    rcases hp : popMin (skipOutdated (streamKeyOf cur.2) s.iters)
        with _ | ⟨top, rest⟩
    · -- branch B: heap fully outdated and exhausted, current also exhausted
      simp only [hp] at hn
      cases hn
      have hskipnil : skipOutdated (streamKeyOf cur.2) s.iters = [] :=
        (popMin_none_iff _).1 hp
      refine mergeInv_keep inputs s.key (cur.1, cur.2.tail)
        (skipOutdated (streamKeyOf cur.2) s.iters) hS1 hsufC1 hsufH ?_ ?_ ?_ ?_ ?_ ?_
      · refine hcov _ ?_ (Or.inl ?_)
        · intro m2 hm2
          rw [mems_some rfl]
          exact List.mem_cons_of_mem _ hm2
        · rw [mems_some rfl]
          exact List.mem_cons_self _ _
      · exact List.nodup_cons.2 ⟨hcur_notin_skip, hskip_nodup⟩
      · intro _ m hm
        rw [hskipnil] at hm
        exact absurd hm (List.not_mem_nil m)
      · intro _
        exact hskipnil
      · intro e he
        rw [hkeyK]
        exact hF7 e he
      · intro m hm e he
        rw [hkeyK]
        exact hF6 m hm e he
    · -- branch A: current exhausted, heap top takes over
      simp only [hp] at hn
      cases hn
      have hperm := popMin_perm hp
      have htopmem : top ∈ skipOutdated (streamKeyOf cur.2) s.iters :=
        hperm.mem_iff.2 (List.mem_cons_self top rest)
      have hrestmem : ∀ m ∈ rest, m ∈ skipOutdated (streamKeyOf cur.2) s.iters :=
        fun m hm => hperm.mem_iff.2 (List.mem_cons_of_mem top hm)
      have hmin := popMin_min hp
      have hpr_nodup : ((top :: rest).map Prod.fst).Nodup :=
        (hperm.map Prod.fst).nodup hskip_nodup
      have hpr_nodup2 : (top.1 :: rest.map Prod.fst).Nodup := by
        simpa using hpr_nodup
      refine mergeInv_keep inputs s.key top rest
        (fun m hm => hS1 m (hrestmem m hm)) (hsufH top htopmem)
        (fun m hm => hsufH m (hrestmem m hm)) ?_ hpr_nodup2 ?_ ?_ ?_ ?_
      · refine hcov _ ?_ (Or.inr hctail)
        intro m2 hm2
        rw [mems_some rfl]
        exact hperm.mem_iff.1 hm2
      · intro _ m hm
        have hne : m.1 ≠ top.1 := by
          intro heq
          refine (List.nodup_cons.1 hpr_nodup2).1 ?_
          rw [← heq]
          exact List.mem_map_of_mem Prod.fst hm
        rcases entryBefore_total_of_ne hne with h1 | h1
        · rw [hmin m (hrestmem m hm)] at h1
          exact Bool.noConfusion h1
        · exact h1
      · intro hce
        rw [hS1 top htopmem] at hce
        exact Bool.noConfusion hce
      · intro e he
        rw [hkeyK]
        exact hF6 top htopmem e he
      · intro m hm e he
        rw [hkeyK]
        exact hF6 m (hrestmem m hm) e he
  · rw [if_neg htate] at hn
    have hct_ne : cur.2.tail.isEmpty = false := Bool.eq_false_iff.2 htate
    rcases hp : popMin (skipOutdated (streamKeyOf cur.2) s.iters)
        with _ | ⟨top, rest⟩
    · -- branch D0: heap emptied by the skip loop, current keeps the lead
      simp only [hp] at hn
      cases hn
      have hskipnil : skipOutdated (streamKeyOf cur.2) s.iters = [] :=
        (popMin_none_iff _).1 hp
      refine mergeInv_keep inputs s.key (cur.1, cur.2.tail)
        (skipOutdated (streamKeyOf cur.2) s.iters) hS1 hsufC1 hsufH ?_ ?_ ?_ ?_ ?_ ?_
      · refine hcov _ ?_ (Or.inl ?_)
        · intro m2 hm2
          rw [mems_some rfl]
          exact List.mem_cons_of_mem _ hm2
        · rw [mems_some rfl]
          exact List.mem_cons_self _ _
      · exact List.nodup_cons.2 ⟨hcur_notin_skip, hskip_nodup⟩
      · intro _ m hm
        rw [hskipnil] at hm
        exact absurd hm (List.not_mem_nil m)
      · intro _
        exact hskipnil
      · intro e he
        rw [hkeyK]
        exact hF7 e he
      · intro m hm e he
        rw [hkeyK]
        exact hF6 m hm e he
    · simp only [hp] at hn
      have hperm := popMin_perm hp
      have htopmem : top ∈ skipOutdated (streamKeyOf cur.2) s.iters :=
        hperm.mem_iff.2 (List.mem_cons_self top rest)
      have hrestmem : ∀ m ∈ rest, m ∈ skipOutdated (streamKeyOf cur.2) s.iters :=
        fun m hm => hperm.mem_iff.2 (List.mem_cons_of_mem top hm)
      have hmin := popMin_min hp
      have hpr_nodup : ((top :: rest).map Prod.fst).Nodup :=
        (hperm.map Prod.fst).nodup hskip_nodup
      have hpr_nodup2 : (top.1 :: rest.map Prod.fst).Nodup := by
        simpa using hpr_nodup
      have htopvalid : top.2.isEmpty = false := hS1 top htopmem
      have htopne : top.1 ≠ cur.1 := by
        intro heq
        refine hcur_notin_skip ?_
        rw [← heq]
        exact List.mem_map_of_mem Prod.fst htopmem
      by_cases hcond : entryBefore top (cur.1, cur.2.tail) = true ∧
          top.2.isEmpty = false
      · -- branch C: heap top overtakes, current is swapped into the heap
        rw [if_pos hcond] at hn
        cases hn
        refine mergeInv_keep inputs s.key top ((cur.1, cur.2.tail) :: rest)
          ?_ (hsufH top htopmem) ?_ ?_ ?_ ?_ ?_ ?_ ?_
        · intro m hm
          rcases List.mem_cons.1 hm with h1 | h1
          · rw [h1]
            exact hct_ne
          · exact hS1 m (hrestmem m h1)
        · intro m hm
          rcases List.mem_cons.1 hm with h1 | h1
          · rw [h1]
            exact hsufC1
          · exact hsufH m (hrestmem m h1)
        · refine hcov _ ?_ (Or.inl ?_)
          · intro m2 hm2
            rw [mems_some rfl]
            rcases List.mem_cons.1 (hperm.mem_iff.1 hm2) with h1 | h1
            · rw [h1]
              exact List.mem_cons_self _ _
            · exact List.mem_cons_of_mem _ (List.mem_cons_of_mem _ h1)
          · rw [mems_some rfl]
            exact List.mem_cons_of_mem _ (List.mem_cons_self _ _)
        · refine List.nodup_cons.2 ⟨?_, List.nodup_cons.2
            ⟨?_, (List.nodup_cons.1 hpr_nodup2).2⟩⟩
          · intro hin
            rcases List.mem_cons.1 hin with h1 | h1
            · exact htopne h1
            · exact (List.nodup_cons.1 hpr_nodup2).1 h1
          · intro hin
            refine hcur_notin_skip ?_
            have h2 : cur.1 ∈ (top :: rest).map Prod.fst :=
              List.mem_cons_of_mem _ hin
            exact ((hperm.map Prod.fst).mem_iff).2 h2
        · intro _ m hm
          rcases List.mem_cons.1 hm with h1 | h1
          · rw [h1]
            exact hcond.1
          · have hne : m.1 ≠ top.1 := by
              intro heq
              refine (List.nodup_cons.1 hpr_nodup2).1 ?_
              rw [← heq]
              exact List.mem_map_of_mem Prod.fst h1
            rcases entryBefore_total_of_ne hne with h2 | h2
            · rw [hmin m (hrestmem m h1)] at h2
              exact Bool.noConfusion h2
            · exact h2
        · intro hce
          rw [htopvalid] at hce
          exact Bool.noConfusion hce
        · intro e he
          rw [hkeyK]
          exact hF6 top htopmem e he
        · intro m hm e he
          rcases List.mem_cons.1 hm with h1 | h1
          · rw [h1] at he
            rw [hkeyK]
            exact hF7 e he
          · rw [hkeyK]
            exact hF6 m (hrestmem m h1) e he
      · -- branch D: current stays ahead of the heap top
        rw [if_neg hcond] at hn
        cases hn
        have hnoswap : entryBefore top (cur.1, cur.2.tail) = false := by
          rcases hb : entryBefore top (cur.1, cur.2.tail) with _ | _
          · rfl
          · exact absurd ⟨hb, htopvalid⟩ hcond
        refine mergeInv_keep inputs s.key (cur.1, cur.2.tail)
          (skipOutdated (streamKeyOf cur.2) s.iters) hS1 hsufC1 hsufH ?_ ?_ ?_ ?_ ?_ ?_
        · refine hcov _ ?_ (Or.inl ?_)
          · intro m2 hm2
            rw [mems_some rfl]
            exact List.mem_cons_of_mem _ hm2
          · rw [mems_some rfl]
            exact List.mem_cons_self _ _
        · exact List.nodup_cons.2 ⟨hcur_notin_skip, hskip_nodup⟩
        · intro _ m hm
          have hmtop : entryBefore m top = false := by
            rcases List.mem_cons.1 (hperm.mem_iff.1 hm) with h1 | h1
            · rw [h1]
              exact entryBefore_irrefl top
            · exact hmin m hm
          have hmcur : entryBefore m (cur.1, cur.2.tail) = false :=
            entryBefore_negtrans hmtop hnoswap
          have hne : ((cur.1, cur.2.tail) : MergeEntry).1 ≠ m.1 := by
            intro heq
            refine hcur_notin_skip ?_
            rw [heq]
            exact List.mem_map_of_mem Prod.fst hm
          rcases entryBefore_total_of_ne hne with h2 | h2
          · exact h2
          · rw [hmcur] at h2
            exact Bool.noConfusion h2
        · intro hce
          exact absurd hce htate
        · intro e he
          rw [hkeyK]
          exact hF7 e he
        · intro m hm e he
          rw [hkeyK]
          exact hF6 m hm e he

theorem mergeNext_isSome {s : MergeIterator} (hc : s.current.isSome = true) :
    ∃ s2, s.next = some s2 := by
  rcases hcur : s.current with _ | cur
  · rw [hcur] at hc
    exact Bool.noConfusion hc
  · simp only [MergeIterator.next, hcur]
    by_cases ht : (cur.2.tail).isEmpty = true
    · rw [if_pos ht]
      rcases hp : popMin (skipOutdated (streamKeyOf cur.2) s.iters)
          with _ | ⟨top, rest⟩ <;> simp only [hp] <;> exact ⟨_, rfl⟩
    · rw [if_neg ht]
      rcases hp : popMin (skipOutdated (streamKeyOf cur.2) s.iters)
          with _ | ⟨top, rest⟩
      · simp only [hp]
        exact ⟨_, rfl⟩
      · simp only [hp]
        by_cases hcond : entryBefore top (cur.1, cur.2.tail) = true ∧
            top.2.isEmpty = false
        · rw [if_pos hcond]
          exact ⟨_, rfl⟩
        · rw [if_neg hcond]
          exact ⟨_, rfl⟩

theorem mergeEmit_invalid {s : MergeIterator} (h : ¬ s.is_valid = true) :
    mergeEmit s = [] := by
  conv_lhs => rw [mergeEmit.eq_def]
  rw [dif_neg h]

theorem mergeEmit_step {s s2 : MergeIterator} (hv : s.is_valid = true)
    (hn : s.next = some s2) :
    mergeEmit s = (s.curIdx, (s.key, s.value)) :: mergeEmit s2 := by
  conv_lhs => rw [mergeEmit.eq_def]
  rw [dif_pos hv]
  split
  · rename_i s3 hn3
    rw [hn] at hn3
    cases hn3
    rfl
  · rename_i hn3
    rw [hn] at hn3
    cases hn3

theorem mergeEmit_spec (inputs : List (List (Bytes × Bytes)))
    (hsorted : ∀ l ∈ inputs, sortedStream l) :
    ∀ n (s : MergeIterator) (bound : Option Bytes), stateTotal s ≤ n →
      MergeInv inputs bound s →
      ((∀ kb, bound = some kb → ∀ t ∈ mergeEmit s, bLt kb t.2.1) ∧
       List.Pairwise (fun t1 t2 => bLt t1.2.1 t2.2.1) (mergeEmit s) ∧
       (∀ t ∈ mergeEmit s, t.2 ∈ inputs.getD t.1 [] ∧
         ∀ j, j < t.1 → ∀ e ∈ inputs.getD j [], e.1 ≠ t.2.1)) := by
  intro n
  induction n with
  | zero =>
    intro s bound h0 hinv
    have hnv : ¬ s.is_valid = true := by
      intro hv
      rcases hcur : s.current with _ | cur
      · unfold MergeIterator.is_valid at hv
        rw [hcur] at hv
        exact Bool.noConfusion hv
      · have hne : cur.2 ≠ [] := by
          unfold MergeIterator.is_valid at hv
          rw [hcur] at hv
          simpa using hv
        have h1 : 1 ≤ cur.2.length := List.length_pos.2 hne
        have hst : stateTotal s = heapTotal s.iters + cur.2.length := by
          unfold stateTotal
          rw [hcur]
        omega
    rw [mergeEmit_invalid hnv]
    exact ⟨fun kb _ t ht => absurd ht (List.not_mem_nil t), List.Pairwise.nil,
      fun t ht => absurd ht (List.not_mem_nil t)⟩
  | succ n ih =>
    intro s bound hle hinv
    by_cases hv : s.is_valid = true
    · obtain ⟨s2, hn⟩ := mergeNext_isSome hinv.cur_some
      have hinv2 := mergeInv_step inputs bound s s2 hsorted hinv hv hn
      have hlt := mergeNext_total hv hn
      have hle2 : stateTotal s2 ≤ n := by omega
      obtain ⟨ihA, ihB, ihC⟩ := ih s2 (some s.key) hle2 hinv2
      rw [mergeEmit_step hv hn]
      rcases hcur : s.current with _ | cur
      · exfalso
        unfold MergeIterator.is_valid at hv
        rw [hcur] at hv
        exact Bool.noConfusion hv
      have hcurne : cur.2 ≠ [] := by
        unfold MergeIterator.is_valid at hv
        rw [hcur] at hv
        simpa using hv
      obtain ⟨hd, ctail, hcur2⟩ : ∃ hd ctail, cur.2 = hd :: ctail := by
        cases hc : cur.2 with
        | nil => exact absurd hc hcurne
        | cons a b => exact ⟨a, b, rfl⟩
      have hkeyK : s.key = streamKeyOf cur.2 := by
        unfold MergeIterator.key
        rw [hcur]
      have hKhd : streamKeyOf cur.2 = hd.1 := by
        rw [hcur2]
        rfl
      have hkey : s.key = hd.1 := by rw [hkeyK, hKhd]
      have hval : s.value = hd.2 := by
        have h1 : s.value = streamValueOf cur.2 := by
          unfold MergeIterator.value
          rw [hcur]
        rw [h1, hcur2]
        rfl
      have hidx : s.curIdx = cur.1 := by
        unfold MergeIterator.curIdx
        rw [hcur]
      have ht02 : ((s.curIdx, (s.key, s.value)) : Nat × (Bytes × Bytes)).2 = hd := by
        show (s.key, s.value) = hd
        rw [hkey, hval]
      have hmems : mems s = cur :: s.iters := mems_some hcur
      have hcurmem : cur ∈ mems s := by
        rw [hmems]
        exact List.mem_cons_self _ _
      have hhdmem : hd ∈ cur.2 := by
        rw [hcur2]
        exact List.mem_cons_self _ _
      have habv : ∀ kb, bound = some kb → bLt kb hd.1 := fun kb hkb =>
        hinv.above_bound kb hkb cur hcurmem hd hhdmem
      refine ⟨?_, ?_, ?_⟩
      · intro kb hkb t ht
        rcases List.mem_cons.1 ht with h1 | h1
        · rw [h1]
          show bLt kb s.key
          rw [hkey]
          exact habv kb hkb
        · have h2 : bLt s.key t.2.1 := ihA s.key rfl t h1
          rw [hkey] at h2
          exact byteCmp_lt_trans (habv kb hkb) h2
      · refine List.Pairwise.cons ?_ ihB
        intro t ht
        show bLt s.key t.2.1
        exact ihA s.key rfl t ht
      · intro t ht
        rcases List.mem_cons.1 ht with h1 | h1
        · subst h1
          refine ⟨?_, ?_⟩
          · rw [ht02]
            show hd ∈ inputs.getD s.curIdx []
            rw [hidx]
            obtain ⟨pre, hpre, _⟩ := hinv.mem_suffix cur hcurmem
            rw [hpre]
            exact List.mem_append.2 (Or.inr hhdmem)
          · intro j hj e he hcontra
            have hj2 : j < cur.1 := by
              rw [← hidx]
              exact hj
            have hc2 : e.1 = hd.1 := by
              rw [hcontra]
              exact hkey
            rcases hinv.coverage j with ⟨rem, hrem⟩ | hright
            · rw [hmems] at hrem
              rcases List.mem_cons.1 hrem with hcase | hcase
              · have hjc : j = cur.1 := congrArg Prod.fst hcase
                omega
              · obtain ⟨pre, hpre, hpred⟩ := hinv.mem_suffix (j, rem)
                  (by rw [hmems]; exact List.mem_cons_of_mem _ hcase)
                have hpre2 : inputs.getD j [] = pre ++ rem := hpre
                rw [hpre2] at he
                rcases List.mem_append.1 he with h2 | h2
                · have hdone := hpred e h2
                  cases hb : bound with
                  | none =>
                    rw [hb] at hdone
                    exact hdone
                  | some kb =>
                    rw [hb] at hdone
                    have h3 : bLe e.1 kb := hdone
                    have h5 : bLt e.1 hd.1 :=
                      bLt_of_bLe_of_bLt h3 (habv kb hb)
                    rw [hc2] at h5
                    exact bLt_irrefl _ h5
                · have hcmin := hinv.cur_min cur hcur (by rw [hcur2]; rfl)
                    (j, rem) hcase
                  have hgt : bLt hd.1 (streamKeyOf rem) := by
                    rcases (entryBefore_iff cur (j, rem)).1 hcmin with h3 | ⟨h3, h4⟩
                    · rw [← hKhd]
                      exact h3
                    · exfalso
                      have h6 : cur.1 < j := h4
                      omega
                  have hsortedrem : sortedStream rem :=
                    sorted_suffix hpre2 (sorted_getD inputs hsorted j)
                  have h6 := elements_above hsortedrem hgt e h2
                  rw [hc2] at h6
                  exact bLt_irrefl _ h6
            · have hdone := hright e he
              cases hb : bound with
              | none =>
                rw [hb] at hdone
                exact hdone
              | some kb =>
                rw [hb] at hdone
                have h3 : bLe e.1 kb := hdone
                have h5 : bLt e.1 hd.1 := bLt_of_bLe_of_bLt h3 (habv kb hb)
                rw [hc2] at h5
                exact bLt_irrefl _ h5
        · exact ihC t h1
    · rw [mergeEmit_invalid hv]
      exact ⟨fun kb _ t ht => absurd ht (List.not_mem_nil t), List.Pairwise.nil,
        fun t ht => absurd ht (List.not_mem_nil t)⟩

theorem enum_getD (inputs : List (List (Bytes × Bytes))) (j : Nat)
    (l : List (Bytes × Bytes)) (hm : (j, l) ∈ inputs.enum) :
    inputs.getD j [] = l := by
  obtain ⟨h1, h2⟩ := List.getElem?_eq_some.1 (List.mk_mem_enum_iff_getElem?.1 hm)
  rw [List.getD_eq_getElem _ _ h1, h2]

theorem enum_mem_of_lt (inputs : List (List (Bytes × Bytes))) (j : Nat)
    (hj : j < inputs.length) : (j, inputs[j]) ∈ inputs.enum :=
  List.mk_mem_enum_iff_getElem?.2 (List.getElem?_eq_getElem hj)

theorem mergeInv_create (inputs : List (List (Bytes × Bytes)))
    (hne : inputs ≠ []) (hnall : inputs.all (fun l => l.isEmpty) = false) :
    MergeInv inputs none (MergeIterator.create inputs) := by
  have hfne : (inputs.enum).filter (fun e => !e.2.isEmpty) ≠ [] :=
    enumFrom_filter_valid_ne_nil inputs 0 hnall
  rcases hp : popMin ((inputs.enum).filter (fun e => !e.2.isEmpty))
      with _ | ⟨m, rest⟩
  · exact absurd ((popMin_none_iff _).1 hp) hfne
  · have hcreate : MergeIterator.create inputs = MergeIterator.mk rest (some m) := by
      unfold MergeIterator.create
      rw [if_neg hne, if_neg (by rw [hnall]; exact Bool.false_ne_true), hp]
    rw [hcreate]
    have hperm := popMin_perm hp
    have hmem2 : mems (MergeIterator.mk rest (some m)) = m :: rest := mems_some rfl
    have hFfacts : ∀ x ∈ (inputs.enum).filter (fun e => !e.2.isEmpty),
        x ∈ inputs.enum ∧ x.2.isEmpty = false := by
      intro x hx
      have h1 := List.mem_filter.1 hx
      refine ⟨h1.1, ?_⟩
      have h2 := h1.2
      rcases hb : x.2.isEmpty with _ | _
      · rfl
      · rw [hb] at h2
        simp at h2
    have hmemF : ∀ x ∈ m :: rest,
        x ∈ (inputs.enum).filter (fun e => !e.2.isEmpty) :=
      fun x hx => hperm.mem_iff.2 hx
    have hFnodup :
        (((inputs.enum).filter (fun e => !e.2.isEmpty)).map Prod.fst).Nodup := by
      have hsub : ((((inputs.enum).filter (fun e => !e.2.isEmpty)).map
          Prod.fst)).Sublist ((inputs.enum).map Prod.fst) :=
        (List.filter_sublist _).map Prod.fst
      refine hsub.nodup ?_
      rw [List.enum_map_fst]
      exact List.nodup_range _
    have hmr_nodup : ((m :: rest).map Prod.fst).Nodup :=
      (hperm.map Prod.fst).nodup hFnodup
    refine ⟨rfl, ?_, ?_, ?_, ?_, ?_, ?_, ?_⟩
    · intro x hx
      exact (hFfacts x (hmemF x (List.mem_cons_of_mem m hx))).2
    · rw [hmem2]
      intro x hx
      obtain ⟨hxe, _⟩ := hFfacts x (hmemF x hx)
      refine ⟨[], ?_, ?_⟩
      · rw [List.nil_append]
        exact enum_getD inputs x.1 x.2 hxe
      · intro e he
        exact absurd he (List.not_mem_nil e)
    · intro j
      by_cases hj : j < inputs.length
      · rcases hbj : (inputs.getD j []).isEmpty with _ | _
        · refine Or.inl ⟨inputs.getD j [], ?_⟩
          rw [hmem2]
          refine hperm.mem_iff.1 ?_
          refine List.mem_filter.2 ⟨?_, ?_⟩
          · have h1 := enum_mem_of_lt inputs j hj
            have h2 : inputs.getD j [] = inputs[j] := List.getD_eq_getElem _ _ hj
            rw [h2]
            exact h1
          · show (!(inputs.getD j []).isEmpty) = true
            rw [hbj]
            rfl
        · refine Or.inr ?_
          intro e he
          have hnil : inputs.getD j [] = [] := by
            rcases hc : inputs.getD j [] with _ | ⟨a, b⟩
            · rfl
            · rw [hc] at hbj
              simp at hbj
          rw [hnil] at he
          exact absurd he (List.not_mem_nil e)
      · refine Or.inr ?_
        intro e he
        rw [List.getD_eq_default] at he
        · exact absurd he (List.not_mem_nil e)
        · omega
    · rw [hmem2]
      exact hmr_nodup
    · intro c hc hcv x hx
      have hc' : some m = some c := hc
      cases hc'
      have hmin := popMin_min hp x (hmemF x (List.mem_cons_of_mem m hx))
      have hne2 : m.1 ≠ x.1 := by
        intro heq
        have h1 : (m.1 :: rest.map Prod.fst).Nodup := by simpa using hmr_nodup
        refine (List.nodup_cons.1 h1).1 ?_
        rw [heq]
        exact List.mem_map_of_mem Prod.fst hx
      rcases entryBefore_total_of_ne hne2 with h1 | h1
      · exact h1
      · rw [hmin] at h1
        exact Bool.noConfusion h1
    · intro c hc hce
      have hc' : some m = some c := hc
      cases hc'
      have h1 := (hFfacts m (hmemF m (List.mem_cons_self m rest))).2
      rw [h1] at hce
      exact Bool.noConfusion hce
    · intro kb hkb
      exact Option.noConfusion hkb

/-- C4: for a MergeIterator created from any list of strictly
key-ascending input iterators, the emitted key sequence is strictly
ascending (hence monotonically non-decreasing with no duplicate keys),
every emitted (key, value) pair is a pair held by the input iterator it
is attributed to, and no input iterator with a smaller registration
index ever yields that key — so on key ties the smallest-indexed
iterator wins and the others' entries for that key are discarded. -/
theorem mergeIterator_sorted_emission (inputs : List (List (Bytes × Bytes)))
    (hsorted : ∀ l ∈ inputs, sortedStream l) :
    List.Pairwise (fun t1 t2 => bLt t1.2.1 t2.2.1)
      (mergeEmit (MergeIterator.create inputs)) ∧
    ∀ t ∈ mergeEmit (MergeIterator.create inputs),
      t.2 ∈ inputs.getD t.1 [] ∧
      ∀ j, j < t.1 → ∀ e ∈ inputs.getD j [], e.1 ≠ t.2.1 := by
  by_cases hne : inputs = []
  · subst hne
    have h1 : mergeEmit (MergeIterator.create []) = [] := by
      refine mergeEmit_invalid ?_
      intro hv
      exact Bool.noConfusion hv
    rw [h1]
    exact ⟨List.Pairwise.nil, fun t ht => absurd ht (List.not_mem_nil t)⟩
  · by_cases hall : inputs.all (fun l => l.isEmpty) = true
    · have hcr : MergeIterator.create inputs =
          MergeIterator.mk [] (some (0, inputs.getLastD [])) := by
        unfold MergeIterator.create
        rw [if_neg hne, if_pos hall]
      have hlastmem : inputs.getLastD [] ∈ inputs := by
        rw [List.getLastD_eq_getLast?, List.getLast?_eq_getLast inputs hne]
        exact List.getLast_mem hne
      have hlast : (inputs.getLastD []).isEmpty = true :=
        List.all_eq_true.1 hall _ hlastmem
      have hnv : ¬ (MergeIterator.create inputs).is_valid = true := by
        rw [hcr]
        show ¬ (!(inputs.getLastD []).isEmpty) = true
        rw [hlast]
        simp
      rw [mergeEmit_invalid hnv]
      exact ⟨List.Pairwise.nil, fun t ht => absurd ht (List.not_mem_nil t)⟩
    · have hinv := mergeInv_create inputs hne (Bool.eq_false_iff.2 hall)
      obtain ⟨_, hB, hC⟩ := mergeEmit_spec inputs hsorted
        (stateTotal (MergeIterator.create inputs)) _ none (Nat.le_refl _) hinv
      exact ⟨hB, hC⟩

/-- Concrete merge input: iterator 0 yields a -> 1 and b -> 2, iterator 1
yields a -> 3; the merge must emit a -> 1 then b -> 2 and discard
iterator 1's entry for a. -/
def c4Inputs : List (List (Bytes × Bytes)) :=
  [[([97], [49]), ([98], [50])], [([97], [51])]]

theorem mergeIterator_sorted_emission_witness :
    (∀ l ∈ c4Inputs, sortedStream l) ∧
      (List.Pairwise (fun t1 t2 => bLt t1.2.1 t2.2.1)
        (mergeEmit (MergeIterator.create c4Inputs)) ∧
      ∀ t ∈ mergeEmit (MergeIterator.create c4Inputs),
        t.2 ∈ c4Inputs.getD t.1 [] ∧
        ∀ j, j < t.1 → ∀ e ∈ c4Inputs.getD j [], e.1 ≠ t.2.1) :=
  ⟨by
    intro l hl
    show List.Pairwise (fun x y => bLt x.1 y.1) l
    fin_cases hl <;> decide,
   mergeIterator_sorted_emission c4Inputs (by
    intro l hl
    show List.Pairwise (fun x y => bLt x.1 y.1) l
    fin_cases hl <;> decide)⟩
